import Mathlib

/-!
Verification of the photfolio build script (build.py): album-tree
construction, collapse rule, aggregation, breadcrumbs/slugs, the
incremental-build staleness oracle and the build orchestrator.

Filesystem state is modelled as a map from path strings to an optional
modification time (`none` = the path does not exist / cannot be statted;
`Path.exists()` reports false in either case).  Python exceptions are
modelled with `Option`: a `none` result of a fallible operation is an
exception propagating to the caller.  Image decoding, resizing and HTML
templating are external collaborators and enter as opaque parameters.
-/

namespace Photfolio

/-- One album node, as built by `_add_photo_to_nested_structure`:
`name`, `path` (slash-joined path string), the ordered list of photos and
the insertion-ordered mapping from child name to child node (Python dicts
keep insertion order, so the mapping is an association list). -/
inductive Album (α : Type) : Type where
  | mk : String → String → List α → List (String × Album α) → Album α

abbrev Albums (α : Type) := List (String × Album α)

def Album.name {α : Type} : Album α → String
  | .mk n _ _ _ => n

def Album.path {α : Type} : Album α → String
  | .mk _ p _ _ => p

def Album.photos {α : Type} : Album α → List α
  | .mk _ _ ph _ => ph

def Album.subalbums {α : Type} : Albums α → Albums α := id

def Album.subs {α : Type} : Album α → Albums α
  | .mk _ _ _ s => s

mutual

/-- Sum of `len(photos)` over a node and all its descendants:
`_count_all_photos` (build.py 455-462). -/
def countAll {α : Type} : Album α → Nat
  | .mk _ _ ph subs => ph.length + countAllSubs subs

/-- `_count_all_photos` summed over an association list of nodes. -/
def countAllSubs {α : Type} : Albums α → Nat
  | [] => 0
  | (_, a) :: rest => countAll a + countAllSubs rest

end

mutual

/-- First photo of a node, else the first photo found by a depth-first
visit of its children in insertion order: `_get_first_photo`
(build.py 464-476). -/
def getFirst {α : Type} : Album α → Option α
  | .mk _ _ ph subs =>
    match ph with
    | p :: _ => some p
    | [] => getFirstSubs subs

/-- The children loop of `_get_first_photo`: first non-`none` result wins. -/
def getFirstSubs {α : Type} : Albums α → Option α
  | [] => none
  | (_, a) :: rest =>
    match getFirst a with
    | some p => some p
    | none => getFirstSubs rest

end

/-! ### Python dict operations (insertion-ordered association lists) -/

def dictLookup {β : Type} : List (String × β) → String → Option β
  | [], _ => none
  | (k, v) :: rest, key => if k = key then some v else dictLookup rest key

def dictContains {β : Type} (d : List (String × β)) (k : String) : Bool :=
  (dictLookup d k).isSome

/-- `if k not in d: d[k] = v` — a new key is appended at the end,
an existing key leaves the dict unchanged. -/
def dictEnsure {β : Type} (d : List (String × β)) (k : String) (v : β) :
    List (String × β) :=
  if dictContains d k then d else d ++ [(k, v)]

/-- In-place update of the value stored at key `k` (its position kept). -/
def dictModify {β : Type} : List (String × β) → String → (β → β) → List (String × β)
  | [], _, _ => []
  | (k, v) :: rest, key, f =>
    if k = key then (k, f v) :: rest else (k, v) :: dictModify rest key f

def keysOf {β : Type} (d : List (String × β)) : List String := d.map Prod.fst

def Album.appendPhoto {α : Type} (x : α) : Album α → Album α
  | .mk n p ph s => .mk n p (ph ++ [x]) s

def Album.modifySubs {α : Type} (f : Albums α → Albums α) : Album α → Album α
  | .mk n p ph s => .mk n p ph (f s)

/-- `'/'.join(parts)`. -/
def joinPath (parts : List String) : String := String.intercalate "/" parts

/-! ### The album tree builder (`_add_photo_to_nested_structure`, build.py 115-142) -/

/-- Ensure a node named `k` exists (creating it with path string `pathStr`,
no photos, no subalbums), then append the photo to its photo list. -/
def insertLeaf {α : Type} (d : Albums α) (k : String) (pathStr : String) (x : α) :
    Albums α :=
  dictModify (dictEnsure d k (Album.mk k pathStr [] [])) k (Album.appendPhoto x)

/-- The `for part in parts` walk of `_add_photo_to_nested_structure`:
at each segment the node is created if unseen (its `path` being the
slash-join of the path so far); at the final segment the photo is appended,
at an intermediate segment the walk descends into `subalbums`. -/
def insertPath {α : Type} (x : α) : List String → List String → Albums α → Albums α
  | _, [], d => d
  | sofar, [p], d => insertLeaf d p (joinPath (sofar ++ [p])) x
  | sofar, p :: rest, d =>
    dictModify (dictEnsure d p (Album.mk p (joinPath (sofar ++ [p])) [] []))
      p (Album.modifySubs (insertPath x (sofar ++ [p]) rest))

/-- `_add_photo_to_nested_structure`: a relative path with a single part
(a root-level photo) goes to the sentinel album `"Main"` (path string
`"main"`); otherwise the photo is inserted along its directory parts
(`relative_path.parts[:-1]`). -/
def addPhoto {α : Type} (d : Albums α) (rel : List String) (x : α) : Albums α :=
  if rel.length = 1 then insertLeaf d "Main" "main" x
  else insertPath x [] rel.dropLast d

/-- The root mapping after inserting every discovered (relative path, photo)
pair in discovery order. -/
def buildAlbums {α : Type} (ps : List (List String × α)) : Albums α :=
  ps.foldl (fun d pr => addPhoto d pr.1 pr.2) []

/-- The result of `scan_photos`: either the nested root mapping, or the
collapsed `{'_single_album': True, 'photos': [...]}` structure. -/
inductive ScanResult (α : Type) : Type where
  | albums : Albums α → ScanResult α
  | single : List α → ScanResult α

/-- `scan_photos` (build.py 84-113): build the nested structure, then
collapse it to the single-album form when the root mapping has exactly one
entry and `'Main'` is one of its keys. -/
def scanPhotos {α : Type} (ps : List (List String × α)) : ScanResult α :=
  let d := buildAlbums ps
  if d.length = 1 ∧ dictContains d "Main" then
    ScanResult.single (((dictLookup d "Main").map Album.photos).getD [])
  else ScanResult.albums d

/-! ### Observations on the tree -/

/-- The node reached by following a key path from the root mapping. -/
def nodeAt {α : Type} : Albums α → List String → Option (Album α)
  | _, [] => none
  | d, [k] => dictLookup d k
  | d, k :: rest =>
    match dictLookup d k with
    | none => none
    | some n => nodeAt n.subs rest

/-- The photo list of the node at a key path (empty when there is none). -/
def photosAt {α : Type} (d : Albums α) (q : List String) : List α :=
  ((nodeAt d q).map Album.photos).getD []

mutual

/-- Every key path of every node in the mapping. -/
def keyPaths {α : Type} : Albums α → List (List String)
  | [] => []
  | (k, a) :: rest => [k] :: ((keyPathsNode a).map (fun q => k :: q) ++ keyPaths rest)

def keyPathsNode {α : Type} : Album α → List (List String)
  | .mk _ _ _ subs => keyPaths subs

end

/-- The album path a relative file path classifies to: the synthetic
segment `Main` for a root-level file, else its directory parts. -/
def albumPathOf (rel : List String) : List String :=
  if rel.length = 1 then ["Main"] else rel.dropLast

/-- The root-mapping key a relative file path contributes to. -/
def firstKey : List String → String
  | [] => ""
  | [_] => "Main"
  | k :: _ :: _ => k

mutual

/-- All dicts in the tree have pairwise-distinct keys. -/
inductive NodeWF {α : Type} : Album α → Prop where
  | mk : ∀ (name path : String) (photos : List α) (subs : Albums α),
      (keysOf subs).Nodup → (∀ kv ∈ subs, NodeWF kv.2) →
      NodeWF (.mk name path photos subs)

end

def AlbumsWF {α : Type} (d : Albums α) : Prop :=
  (keysOf d).Nodup ∧ ∀ kv ∈ d, NodeWF kv.2

/-! ### Processed albums (`_process_albums_recursive`, build.py 497-543)

A processed node additionally carries the aggregates the code assigns
after construction: `total_photos` and `cover_photo`. -/

/-- name, path, processed photos, subalbums, `total_photos`, `cover_photo`. -/
inductive PAlbum (β : Type) : Type where
  | mk : String → String → List β → List (String × PAlbum β) → Nat → Option β → PAlbum β

abbrev PAlbums (β : Type) := List (String × PAlbum β)

def PAlbum.photos {β : Type} : PAlbum β → List β
  | .mk _ _ ph _ _ _ => ph

def PAlbum.subs {β : Type} : PAlbum β → PAlbums β
  | .mk _ _ _ s _ _ => s

def PAlbum.totalPhotos {β : Type} : PAlbum β → Nat
  | .mk _ _ _ _ t _ => t

def PAlbum.coverPhoto {β : Type} : PAlbum β → Option β
  | .mk _ _ _ _ _ c => c

def PAlbum.path {β : Type} : PAlbum β → String
  | .mk _ p _ _ _ _ => p

mutual

/-- `_count_all_photos` run on a processed node: it reads only the
`photos` and `subalbums` keys, never the stored aggregates. -/
def countAllP {β : Type} : PAlbum β → Nat
  | .mk _ _ ph subs _ _ => ph.length + countAllPSubs subs

def countAllPSubs {β : Type} : PAlbums β → Nat
  | [] => 0
  | (_, a) :: rest => countAllP a + countAllPSubs rest

end

mutual

/-- `_get_first_photo` run on a processed node. -/
def getFirstP {β : Type} : PAlbum β → Option β
  | .mk _ _ ph subs _ _ =>
    match ph with
    | p :: _ => some p
    | [] => getFirstPSubs subs

def getFirstPSubs {β : Type} : PAlbums β → Option β
  | [] => none
  | (_, a) :: rest =>
    match getFirstP a with
    | some p => some p
    | none => getFirstPSubs rest

end

mutual

/-- `_process_albums_recursive`: each photo of a node is processed (the
per-photo transform `f` receives the node's path string, the 1-based
photo index and the photo), subalbums are processed recursively, and the
finished node gets `total_photos` and `cover_photo` computed by running
`_count_all_photos` and `_get_first_photo` on itself. -/
def processAlbums {α β : Type} (f : String → Nat → α → β) : Albums α → PAlbums β
  | [] => []
  | (name, a) :: rest => (name, processNode f name a) :: processAlbums f rest

def processNode {α β : Type} (f : String → Nat → α → β) (name : String) :
    Album α → PAlbum β
  | .mk _ path ph subs =>
    let pphotos := (List.enumFrom 1 ph).map (fun ip => f path ip.1 ip.2)
    let psubs := processAlbums f subs
    PAlbum.mk name path pphotos psubs
      (countAllP (PAlbum.mk name path pphotos psubs 0 none))
      (getFirstP (PAlbum.mk name path pphotos psubs 0 none))

end

/-- The node reached by following a key path in a processed mapping. -/
def nodeAtP {β : Type} : PAlbums β → List String → Option (PAlbum β)
  | _, [] => none
  | d, [k] => dictLookup d k
  | d, k :: rest =>
    match dictLookup d k with
    | none => none
    | some n => nodeAtP n.subs rest

/-! ### The staleness oracle (`_should_skip_processing`, build.py 324-347)

`fs` maps a path to `some` modification time when `stat` succeeds and to
`none` when the path is missing or `stat` fails (`Path.exists()` returns
false in both cases).  The oracle's result is `none` when an uncaught
exception escapes it. -/

/-- The `for output_path in output_paths` loop: each output is statted;
the loop returns false as soon as one is not strictly newer than the
source, true when all are. -/
def checkNewer (fs : String → Option Int) (srcM : Int) : List String → Option Bool
  | [] => some true
  | p :: rest =>
    match fs p with
    | none => none
    | some m => if m ≤ srcM then some false else checkNewer fs srcM rest

/-- `_should_skip_processing(source_path, output_paths)`: false unless all
outputs exist; otherwise the source is statted (an exception if that
fails) and all outputs must be strictly newer than it. -/
def shouldSkipProcessing (fs : String → Option Int) (sourcePath : String)
    (outputPaths : List String) : Option Bool :=
  if outputPaths.all (fun p => (fs p).isSome) then
    match fs sourcePath with
    | none => none
    | some srcM => checkNewer fs srcM outputPaths
  else some false

/-! ### `process_image` (build.py 168-216) and `_build_image_info` (349-395) -/

/-- The configuration keys the core logic reads.  `imagesDir` is the
physical image output directory (`self.images_dir`), `imagesBasePath` the
URL base (`site.images_base_path`). -/
structure Config : Type where
  keepOriginalFilenames : Bool
  generateWebp : Bool
  incremental : Bool
  imagesDir : String
  imagesBasePath : String

/-- The pieces of a source photo path the code reads (`pathlib` accessors). -/
structure SourceRef : Type where
  path : String
  name : String
  stem : String
  suffix : String
deriving DecidableEq, Repr

/-- The per-photo record handed to aggregation and templates. -/
structure ImgInfo : Type where
  filename : String
  full : String
  thumb : String
  width : Nat
  height : Nat
  exif : Option Nat
  fullWebp : Option String
  thumbWebp : Option String
deriving DecidableEq, Repr

/-- One `process_image` call's observable outcome: the record it returned
(`none` = an exception escaped), whether the staleness oracle was
consulted and whether the image pipeline was (re)run. -/
structure PIOut : Type where
  info : Option ImgInfo
  consultedOracle : Bool
  regenerated : Bool
deriving DecidableEq, Repr

/-- `f"photo-{photo_index:03d}"`s padding. -/
def pad3 (n : Nat) : String :=
  if n < 10 then "00" ++ toString n
  else if n < 100 then "0" ++ toString n
  else toString n

/-- `pathlib`'s `/`: joining with an empty segment leaves the path as is. -/
def pathJoin (a b : String) : String := if b = "" then a else a ++ "/" ++ b

/-- `str.rstrip('/')`. -/
def rstripSlash (s : String) : String :=
  String.mk ((s.data.reverse.dropWhile (fun c => c = '/')).reverse)

/-- Output (filename, stem) chosen by `process_image` (build.py 180-188). -/
def outFilename (cfg : Config) (src : SourceRef) (idx : Nat) : String × String :=
  if cfg.keepOriginalFilenames then (src.name, src.stem)
  else ("photo-" ++ pad3 idx ++ src.suffix, "photo-" ++ pad3 idx)

def albumDirFor (cfg : Config) (albumPath : String) : String :=
  pathJoin cfg.imagesDir albumPath

def albumThumbsDirFor (cfg : Config) (albumPath : String) : String :=
  pathJoin (pathJoin cfg.imagesDir "thumbs") albumPath

def fullPathFor (cfg : Config) (src : SourceRef) (albumPath : String) (idx : Nat) :
    String :=
  pathJoin (albumDirFor cfg albumPath) (outFilename cfg src idx).1

def thumbPathFor (cfg : Config) (src : SourceRef) (albumPath : String) (idx : Nat) :
    String :=
  pathJoin (albumThumbsDirFor cfg albumPath) (outFilename cfg src idx).1

/-- `outputs_to_check` (build.py 200-207): full image, thumbnail, and the
two WebP variants when WebP generation is enabled. -/
def outputsFor (cfg : Config) (src : SourceRef) (albumPath : String) (idx : Nat) :
    List String :=
  let stem := (outFilename cfg src idx).2
  [fullPathFor cfg src albumPath idx, thumbPathFor cfg src albumPath idx] ++
    (if cfg.generateWebp then
      [pathJoin (albumDirFor cfg albumPath) (stem ++ ".webp"),
       pathJoin (albumThumbsDirFor cfg albumPath) (stem ++ ".webp")]
    else [])

/-- The directory holding a photo's WebP variant as `_build_image_info`
recomputes it (build.py 384). -/
def webpAlbumDir (cfg : Config) (albumPath : String) : String :=
  if albumPath = "" then cfg.imagesDir else pathJoin cfg.imagesDir albumPath

/-- `_build_image_info`: dimensions are read from the existing full-size
output (`dims`, `none` = `Image.open` raises), `exif` is always `None`,
and the WebP URL fields are added only when the WebP full-size file
exists on disk. -/
def buildImageInfo (cfg : Config) (fs : String → Option Int)
    (dims : String → Option (Nat × Nat)) (albumPath filename fullPath : String)
    (webpStem : Option String) : Option ImgInfo :=
  match dims fullPath with
  | none => none
  | some wh =>
    some
      { filename := filename
        full :=
          if albumPath = "" then rstripSlash cfg.imagesBasePath ++ "/" ++ filename
          else rstripSlash cfg.imagesBasePath ++ "/" ++ albumPath ++ "/" ++ filename
        thumb :=
          if albumPath = "" then rstripSlash cfg.imagesBasePath ++ "/thumbs/" ++ filename
          else rstripSlash cfg.imagesBasePath ++ "/thumbs/" ++ albumPath ++ "/" ++ filename
        width := wh.1
        height := wh.2
        exif := none
        fullWebp :=
          match webpStem with
          | none => none
          | some ws =>
            if (fs (pathJoin (webpAlbumDir cfg albumPath) (ws ++ ".webp"))).isSome then
              some (if albumPath = "" then rstripSlash cfg.imagesBasePath ++ "/" ++ ws ++ ".webp"
                else rstripSlash cfg.imagesBasePath ++ "/" ++ albumPath ++ "/" ++ ws ++ ".webp")
            else none
        thumbWebp :=
          match webpStem with
          | none => none
          | some ws =>
            if (fs (pathJoin (webpAlbumDir cfg albumPath) (ws ++ ".webp"))).isSome then
              some (if albumPath = "" then rstripSlash cfg.imagesBasePath ++ "/thumbs/" ++ ws ++ ".webp"
                else rstripSlash cfg.imagesBasePath ++ "/thumbs/" ++ albumPath ++ "/" ++ ws ++ ".webp")
            else none }

/-- `process_image`: when `skip_if_current` is set, the staleness oracle is
consulted on the configuration-accurate output set and, if it answers
true, the record is synthesized by `_build_image_info` without rerunning
the pipeline; on every other path the (external, opaque) image pipeline
`transform` runs and its record is returned. -/
def processImage (cfg : Config) (fs : String → Option Int)
    (dims : String → Option (Nat × Nat)) (transform : String → String → Nat → ImgInfo)
    (src : SourceRef) (albumPath : String) (idx : Nat) (skipIfCurrent : Bool) : PIOut :=
  let filename := (outFilename cfg src idx).1
  let stem := (outFilename cfg src idx).2
  if skipIfCurrent then
    match shouldSkipProcessing fs src.path (outputsFor cfg src albumPath idx) with
    | none => { info := none, consultedOracle := true, regenerated := false }
    | some true =>
      { info := buildImageInfo cfg fs dims albumPath filename
          (fullPathFor cfg src albumPath idx)
          (if cfg.generateWebp then some stem else none),
        consultedOracle := true, regenerated := false }
    | some false =>
      { info := some (transform albumPath filename idx),
        consultedOracle := true, regenerated := true }
  else
    { info := some (transform albumPath filename idx),
      consultedOracle := false, regenerated := true }

/-! ### `clean_build` (build.py 50-82) and the orchestrator `build` (545-598) -/

/-- `clean_build` in the default layout (images inside the build
directory), observed at the granularity of the build directory's
top-level entries.  `buildDir = none` means the directory does not exist.
A full clean removes everything; an incremental clean removes everything
except the `images` entry; the image directories are then (re)created. -/
def cleanBuild (incremental : Bool) (buildDir : Option (List String)) : List String :=
  let items :=
    match buildDir with
    | none => []
    | some its =>
      if incremental && its.contains "images" then its.filter (fun n => n == "images")
      else []
  if items.contains "images" then items else items ++ ["images"]

mutual

/-- The `process_image` outcomes of `_process_albums_recursive`, in call
order: a node's own photos (1-based enumeration) first, then its
subalbums. -/
def albumOutcomes (g : String → Nat → SourceRef → PIOut) : Albums SourceRef → List PIOut
  | [] => []
  | (_, a) :: rest => nodeOutcomes g a ++ albumOutcomes g rest

def nodeOutcomes (g : String → Nat → SourceRef → PIOut) : Album SourceRef → List PIOut
  | .mk _ path ph subs =>
    (List.enumFrom 1 ph).map (fun ip => g path ip.1 ip.2) ++ albumOutcomes g subs

end

/-- What one `build()` run did (build.py 545-598). -/
structure BuildOut : Type where
  cleanIncremental : Bool
  stoppedEmpty : Bool
  outcomes : List PIOut
  rendered : Bool
  outItems : List String

/-- `build(force_rebuild)`: incremental mode is the config flag minus the
force directive; `clean_build` runs first, then the scan; an empty scan
stops after the diagnostic; otherwise every photo is processed with
`skip_if_current=incremental` (single-album photos under the empty album
path) and the HTML renderer (opaque `render`) runs. -/
def runBuild (cfg : Config) (forceRebuild : Bool) (fs : String → Option Int)
    (dims : String → Option (Nat × Nat)) (transform : String → String → Nat → ImgInfo)
    (render : List String → List String) (ps : List (List String × SourceRef))
    (buildDir : Option (List String)) : BuildOut :=
  let incremental := cfg.incremental && !forceRebuild
  let cleaned := cleanBuild incremental buildDir
  let g := fun path idx src => processImage cfg fs dims transform src path idx incremental
  match scanPhotos ps with
  | ScanResult.albums [] =>
    { cleanIncremental := incremental, stoppedEmpty := true, outcomes := [],
      rendered := false, outItems := cleaned }
  | ScanResult.single ph =>
    { cleanIncremental := incremental, stoppedEmpty := false,
      outcomes := (List.enumFrom 1 ph).map (fun ip => g "" ip.1 ip.2),
      rendered := true, outItems := render cleaned }
  | ScanResult.albums d =>
    { cleanIncremental := incremental, stoppedEmpty := false,
      outcomes := albumOutcomes g d,
      rendered := true, outItems := render cleaned }

/-! ### Breadcrumbs and slugs (`_build_breadcrumb` build.py 478-495,
album page filenames build.py 446)

Python's string methods are modelled on the character list underlying a
`String`: `.lower()` and `.capitalize()` act per character (the code only
meets basic-latin directory names, where `Char.toLower`/`toUpper` agree
with Python), and `.replace(old, new)` with single-character arguments is
a per-character substitution. -/

def lowerStr (s : String) : String := String.mk (s.data.map Char.toLower)

/-- `str.replace(a, b)` for single characters. -/
def replaceCh (a b : Char) (s : String) : String :=
  String.mk (s.data.map (fun c => if c = a then b else c))

/-- `str.capitalize()`: first character upper-cased, the rest lower-cased. -/
def capitalizeStr (s : String) : String :=
  match s.data with
  | [] => String.mk []
  | c :: cs => String.mk (c.toUpper :: cs.map Char.toLower)

/-- `str.split(sep)` with an explicit separator: never returns an empty
list (`''.split('/') == ['']`). -/
def splitChar (sep : Char) : List Char → List (List Char)
  | [] => [[]]
  | c :: rest =>
    match splitChar sep rest with
    | [] => [[]]
    | s :: ss => if c = sep then [] :: s :: ss else (c :: s) :: ss

def splitSlash (s : String) : List String :=
  (splitChar '/' s.data).map String.mk

/-- `sep.join(parts)` on character lists. -/
def joinChars (sep : Char) : List (List Char) → List Char
  | [] => []
  | [l] => l
  | l :: l2 :: rest => l ++ sep :: joinChars sep (l2 :: rest)

/-- `sep.join(parts)` for a single-character separator. -/
def joinSep (sep : Char) (parts : List String) : String :=
  String.mk (joinChars sep (parts.map String.data))

/-- The album page filename slug (build.py 446):
`path.lower().replace(' ', '-').replace('/', '-')`. -/
def slugPage (path : String) : String :=
  replaceCh '/' '-' (replaceCh ' ' '-' (lowerStr path))

/-- `_build_breadcrumb`: a `Home` anchor, the `main` special case, and one
entry per path segment with display name `part.capitalize()` and URL
`'-'.join(parts[:i+1]).lower().replace(' ', '-') + ".html"`. -/
def buildBreadcrumb (albumPath : String) : List (String × String) :=
  if albumPath = "main" then [("Home", "index.html"), ("Main", "main.html")]
  else
    let parts := splitSlash albumPath
    ("Home", "index.html") ::
      (List.enum parts).map (fun ip =>
        (capitalizeStr ip.2,
         replaceCh ' ' '-' (lowerStr (joinSep '-' (parts.take (ip.1 + 1)))) ++ ".html"))

/-- Modelled from the spec: the slug rule of section 4.3 — "join path
segments with `/`, lower-case, replace spaces with hyphens, then for the
page filename replace `/` with `-`". -/
def slugSpec (parts : List String) : String :=
  replaceCh '/' '-' (replaceCh ' ' '-' (lowerStr (joinSep '/' parts)))

/-- Modelled from the spec: one breadcrumb entry per path segment after
the leading Home anchor, the display name being the segment's capitalized
form and the URL the slug of the path-so-far plus `.html`. -/
def breadcrumbSpec (albumPath : String) : List (String × String) :=
  let parts := splitSlash albumPath
  ("Home", "index.html") ::
    (List.enum parts).map (fun ip =>
      (capitalizeStr ip.2, slugSpec (parts.take (ip.1 + 1)) ++ ".html"))

/-- Occurrence count (used to state that the tree has exactly one node
per distinct path). -/
def cnt {γ : Type} [DecidableEq γ] : List γ → γ → Nat
  | [], _ => 0
  | a :: l, x => (if a = x then 1 else 0) + cnt l x

/-! ## Lemmas: dictionary operations -/

theorem dictLookup_append {β : Type} (d₁ d₂ : List (String × β)) (k : String) :
    dictLookup (d₁ ++ d₂) k =
      if (dictLookup d₁ k).isSome then dictLookup d₁ k else dictLookup d₂ k := by
  induction d₁ with
  | nil => simp [dictLookup]
  | cons kv rest ih =>
    obtain ⟨k₁, v₁⟩ := kv
    by_cases h : k₁ = k <;> simp [dictLookup, h, ih]

theorem dictLookup_ensure {β : Type} (d : List (String × β)) (k : String) (v : β)
    (k' : String) :
    dictLookup (dictEnsure d k v) k' =
      if k' = k then some ((dictLookup d k).getD v) else dictLookup d k' := by
  unfold dictEnsure dictContains
  by_cases h : (dictLookup d k).isSome
  · rw [if_pos h]
    obtain ⟨w, hw⟩ := Option.isSome_iff_exists.mp h
    by_cases hk : k' = k <;> simp [hk, hw]
  · rw [if_neg h, dictLookup_append]
    by_cases hk : k' = k
    · subst hk
      simp [Option.not_isSome_iff_eq_none.mp h, dictLookup]
    · have hkk : k ≠ k' := fun hh => hk hh.symm
      have hsingle : dictLookup [(k, v)] k' = none := by simp [dictLookup, hkk]
      rw [if_neg hk]
      by_cases h2 : (dictLookup d k').isSome
      · rw [if_pos h2]
      · rw [if_neg h2, hsingle, Option.not_isSome_iff_eq_none.mp h2]

theorem dictLookup_modify {β : Type} (d : List (String × β)) (k : String)
    (f : β → β) (k' : String) :
    dictLookup (dictModify d k f) k' =
      if k' = k then (dictLookup d k).map f else dictLookup d k' := by
  induction d with
  | nil => by_cases hk : k' = k <;> simp [dictModify, dictLookup, hk]
  | cons kv rest ih =>
    obtain ⟨k₁, v₁⟩ := kv
    by_cases h1 : k₁ = k
    · subst h1
      by_cases hk : k' = k₁
      · subst hk
        simp [dictModify, dictLookup]
      · have hk2 : ¬ k₁ = k' := fun hh => hk hh.symm
        simp [dictModify, dictLookup, hk, hk2]
    · by_cases hk : k₁ = k'
      · subst hk
        simp [dictModify, h1, dictLookup]
      · simp [dictModify, h1, dictLookup, hk, ih]

theorem keysOf_ensure {β : Type} (d : List (String × β)) (k : String) (v : β) :
    keysOf (dictEnsure d k v) =
      if (dictLookup d k).isSome then keysOf d else keysOf d ++ [k] := by
  unfold dictEnsure dictContains
  by_cases h : (dictLookup d k).isSome <;> simp [h, keysOf]

theorem keysOf_modify {β : Type} (d : List (String × β)) (k : String) (f : β → β) :
    keysOf (dictModify d k f) = keysOf d := by
  induction d with
  | nil => rfl
  | cons kv rest ih =>
    obtain ⟨k₁, v₁⟩ := kv
    by_cases h : k₁ = k
    · subst h
      simp [dictModify, keysOf]
    · simp only [dictModify, if_neg h]
      simp [keysOf] at ih ⊢
      exact ih

theorem dictLookup_isSome_iff_mem {β : Type} (d : List (String × β)) (k : String) :
    (dictLookup d k).isSome ↔ k ∈ keysOf d := by
  induction d with
  | nil => simp [dictLookup, keysOf]
  | cons kv rest ih =>
    obtain ⟨k₁, v₁⟩ := kv
    by_cases h : k₁ = k
    · simp [dictLookup, h, keysOf, ih]
    · have h2 : ¬ k = k₁ := fun hh => h hh.symm
      simp [dictLookup, h, h2, keysOf, ih]

theorem dictLookup_eq_none_iff {β : Type} (d : List (String × β)) (k : String) :
    dictLookup d k = none ↔ k ∉ keysOf d := by
  rw [← dictLookup_isSome_iff_mem, Option.not_isSome_iff_eq_none]

theorem dictLookup_mem {β : Type} (d : List (String × β)) (k : String) (v : β)
    (h : dictLookup d k = some v) : (k, v) ∈ d := by
  induction d with
  | nil => simp [dictLookup] at h
  | cons kv rest ih =>
    obtain ⟨k₁, v₁⟩ := kv
    by_cases h1 : k₁ = k
    · subst h1
      simp [dictLookup] at h
      simp [h]
    · simp [dictLookup, h1] at h
      exact List.mem_cons_of_mem _ (ih h)

theorem dictModify_mem {β : Type} (d : List (String × β)) (k : String) (f : β → β)
    (kv : String × β) (h : kv ∈ dictModify d k f) :
    kv ∈ d ∨ ∃ v, dictLookup d k = some v ∧ kv = (k, f v) := by
  induction d with
  | nil => simp [dictModify] at h
  | cons kv₁ rest ih =>
    obtain ⟨k₁, v₁⟩ := kv₁
    by_cases h1 : k₁ = k
    · subst h1
      simp [dictModify] at h
      rcases h with h | h
      · exact Or.inr ⟨v₁, by simp [dictLookup], h⟩
      · exact Or.inl (List.mem_cons_of_mem _ h)
    · simp [dictModify, h1] at h
      rcases h with h | h
      · exact Or.inl (by simp [h])
      · rcases ih h with h2 | ⟨v, hv, hkv⟩
        · exact Or.inl (List.mem_cons_of_mem _ h2)
        · exact Or.inr ⟨v, by simp [dictLookup, h1, hv], hkv⟩

theorem dictEnsure_mem {β : Type} (d : List (String × β)) (k : String) (v : β)
    (kv : String × β) (h : kv ∈ dictEnsure d k v) : kv ∈ d ∨ kv = (k, v) := by
  unfold dictEnsure at h
  by_cases hc : dictContains d k
  · rw [if_pos hc] at h; exact Or.inl h
  · rw [if_neg hc] at h
    simp at h
    exact h

/-! ## Lemmas: album nodes and tree navigation -/

@[simp] theorem Album.subs_mk {α : Type} (n p : String) (ph : List α) (s : Albums α) :
    (Album.mk n p ph s).subs = s := rfl

@[simp] theorem Album.photos_mk {α : Type} (n p : String) (ph : List α) (s : Albums α) :
    (Album.mk n p ph s).photos = ph := rfl

@[simp] theorem Album.subs_appendPhoto {α : Type} (x : α) (a : Album α) :
    (Album.appendPhoto x a).subs = a.subs := by
  cases a; rfl

@[simp] theorem Album.photos_appendPhoto {α : Type} (x : α) (a : Album α) :
    (Album.appendPhoto x a).photos = a.photos ++ [x] := by
  cases a; rfl

@[simp] theorem Album.subs_modifySubs {α : Type} (f : Albums α → Albums α) (a : Album α) :
    (Album.modifySubs f a).subs = f a.subs := by
  cases a; rfl

@[simp] theorem Album.photos_modifySubs {α : Type} (f : Albums α → Albums α) (a : Album α) :
    (Album.modifySubs f a).photos = a.photos := by
  cases a; rfl

@[simp] theorem nodeAt_nil_path {α : Type} (d : Albums α) : nodeAt d [] = none := rfl

@[simp] theorem nodeAt_single {α : Type} (d : Albums α) (k : String) :
    nodeAt d [k] = dictLookup d k := rfl

theorem nodeAt_cons {α : Type} (d : Albums α) (k : String) (q : List String)
    (hq : q ≠ []) :
    nodeAt d (k :: q) =
      match dictLookup d k with
      | none => none
      | some n => nodeAt n.subs q := by
  cases q with
  | nil => exact absurd rfl hq
  | cons a b => rfl

@[simp] theorem nodeAt_empty {α : Type} (q : List String) :
    nodeAt ([] : Albums α) q = none := by
  cases q with
  | nil => rfl
  | cons k rest =>
    cases rest with
    | nil => rfl
    | cons a b => rfl

@[simp] theorem photosAt_nil_path {α : Type} (d : Albums α) : photosAt d [] = [] := rfl

@[simp] theorem photosAt_empty {α : Type} (q : List String) :
    photosAt ([] : Albums α) q = [] := by
  simp [photosAt]

theorem photosAt_cons {α : Type} (d : Albums α) (k : String) (q : List String)
    (hq : q ≠ []) :
    photosAt d (k :: q) =
      match dictLookup d k with
      | none => []
      | some n => photosAt n.subs q := by
  rw [photosAt, nodeAt_cons d k q hq]
  cases dictLookup d k with
  | none => rfl
  | some n => rfl

/-- The key update shape of the insertion walk: ensure a key, then modify
the value sitting at it. -/
theorem dictLookup_modify_ensure {β : Type} (d : List (String × β)) (k : String)
    (v0 : β) (g : β → β) (k' : String) :
    dictLookup (dictModify (dictEnsure d k v0) k g) k' =
      if k' = k then some (g ((dictLookup d k).getD v0)) else dictLookup d k' := by
  rw [dictLookup_modify]
  by_cases hk : k' = k
  · rw [if_pos hk, if_pos hk, dictLookup_ensure]
    simp
  · rw [if_neg hk, if_neg hk, dictLookup_ensure, if_neg hk]

theorem keysOf_modify_ensure {β : Type} (d : List (String × β)) (k : String)
    (v0 : β) (g : β → β) :
    keysOf (dictModify (dictEnsure d k v0) k g) =
      if k ∈ keysOf d then keysOf d else keysOf d ++ [k] := by
  rw [keysOf_modify, keysOf_ensure]
  by_cases h : k ∈ keysOf d
  · rw [if_pos ((dictLookup_isSome_iff_mem d k).mpr h), if_pos h]
  · rw [if_neg (fun hs => h ((dictLookup_isSome_iff_mem d k).mp hs)), if_neg h]

/-! ## Lemmas: the insertion walk -/

theorem dictLookup_insertLeaf {α : Type} (d : Albums α) (k s : String) (x : α)
    (k' : String) :
    dictLookup (insertLeaf d k s x) k' =
      if k' = k then
        some (Album.appendPhoto x ((dictLookup d k).getD (Album.mk k s [] [])))
      else dictLookup d k' :=
  dictLookup_modify_ensure d k _ _ k'

theorem nodeAt_insertLeaf {α : Type} (d : Albums α) (k s : String) (x : α)
    (q : List String) :
    nodeAt (insertLeaf d k s x) q =
      if q = [k] then
        some (Album.appendPhoto x ((dictLookup d k).getD (Album.mk k s [] [])))
      else nodeAt d q := by
  cases q with
  | nil => simp
  | cons k' q' =>
    cases q' with
    | nil =>
      by_cases hk : k' = k
      · subst hk
        simp [dictLookup_insertLeaf]
      · have hq : ¬ ([k'] = [k]) := by simp [hk]
        rw [if_neg hq, nodeAt_single, nodeAt_single, dictLookup_insertLeaf, if_neg hk]
    | cons a b =>
      have hne : (a :: b) ≠ ([] : List String) := by simp
      have hq : ¬ (k' :: a :: b = [k]) := by simp
      rw [if_neg hq, nodeAt_cons _ _ _ hne, nodeAt_cons _ _ _ hne,
        dictLookup_insertLeaf]
      by_cases hk : k' = k
      · rw [if_pos hk, hk]
        cases hl : dictLookup d k with
        | none => simp [hl]
        | some old => simp [hl]
      · rw [if_neg hk]

theorem photosAt_insertLeaf {α : Type} (d : Albums α) (k s : String) (x : α)
    (q : List String) :
    photosAt (insertLeaf d k s x) q = photosAt d q ++ (if q = [k] then [x] else []) := by
  rw [photosAt, nodeAt_insertLeaf]
  by_cases h : q = [k]
  · subst h
    rw [if_pos rfl, if_pos rfl, photosAt, nodeAt_single]
    cases hl : dictLookup d k with
    | none => simp
    | some old => simp
  · rw [if_neg h, if_neg h, photosAt]
    simp

theorem photosAt_insertPath {α : Type} (x : α) :
    ∀ (parts : List String), parts ≠ [] →
      ∀ (sofar : List String) (d : Albums α) (q : List String),
        photosAt (insertPath x sofar parts d) q =
          photosAt d q ++ (if q = parts then [x] else []) := by
  intro parts
  induction parts with
  | nil => intro h; exact absurd rfl h
  | cons p rest ih =>
    intro _ sofar d q
    cases rest with
    | nil => exact photosAt_insertLeaf d p _ x q
    | cons r2 rrest =>
      have hstep : insertPath x sofar (p :: r2 :: rrest) d =
          dictModify (dictEnsure d p (Album.mk p (joinPath (sofar ++ [p])) [] []))
            p (Album.modifySubs (insertPath x (sofar ++ [p]) (r2 :: rrest))) := rfl
      rw [hstep]
      cases q with
      | nil =>
        simp [photosAt]
      | cons k' q' =>
        by_cases hk : k' = p
        · subst hk
          cases q' with
          | nil =>
            have hq : ¬ ([k'] = k' :: r2 :: rrest) := by simp
            rw [if_neg hq, photosAt, nodeAt_single, dictLookup_modify_ensure,
              if_pos rfl, photosAt, nodeAt_single]
            cases hl : dictLookup d k' with
            | none => simp
            | some old => simp
          | cons a b =>
            have hne : (a :: b) ≠ ([] : List String) := by simp
            rw [photosAt_cons _ _ _ hne, photosAt_cons _ _ _ hne,
              dictLookup_modify_ensure, if_pos rfl]
            cases hl : dictLookup d k' with
            | none =>
              simp only [Option.getD_none, Album.subs_modifySubs, Album.subs_mk]
              rw [ih (by simp) (sofar ++ [k']) [] (a :: b)]
              simp
            | some old =>
              simp only [Option.getD_some, Album.subs_modifySubs]
              rw [ih (by simp) (sofar ++ [k']) old.subs (a :: b)]
              simp
        · have hq : ¬ (k' :: q' = p :: r2 :: rrest) := by simp [hk]
          rw [if_neg hq]
          cases q' with
          | nil =>
            rw [photosAt, nodeAt_single, dictLookup_modify_ensure, if_neg hk,
              photosAt, nodeAt_single]
            simp
          | cons a b =>
            have hne : (a :: b) ≠ ([] : List String) := by simp
            rw [photosAt_cons _ _ _ hne, photosAt_cons _ _ _ hne,
              dictLookup_modify_ensure, if_neg hk]
            simp

theorem nodeAt_isSome_insertPath {α : Type} (x : α) :
    ∀ (parts : List String), parts ≠ [] →
      ∀ (sofar : List String) (d : Albums α) (q : List String),
        (nodeAt (insertPath x sofar parts d) q).isSome ↔
          (nodeAt d q).isSome ∨ (q ≠ [] ∧ ∃ t, q ++ t = parts) := by
  intro parts
  induction parts with
  | nil => intro h; exact absurd rfl h
  | cons p rest ih =>
    intro _ sofar d q
    cases rest with
    | nil =>
      have hbase : insertPath x sofar [p] d = insertLeaf d p (joinPath (sofar ++ [p])) x := rfl
      rw [hbase, nodeAt_insertLeaf]
      by_cases h : q = [p]
      · subst h
        simp
      · rw [if_neg h]
        cases q with
        | nil => simp
        | cons k' q' =>
          simp only [ne_eq, reduceCtorEq, not_false_iff, true_and, List.cons_append]
          constructor
          · exact fun hs => Or.inl hs
          · rintro (hs | ⟨t, ht⟩)
            · exact hs
            · exfalso
              cases q' with
              | nil =>
                simp at ht
                exact h (by simp [ht.1])
              | cons a b =>
                have := congrArg List.length ht
                simp at this
    | cons r2 rrest =>
      have hstep : insertPath x sofar (p :: r2 :: rrest) d =
          dictModify (dictEnsure d p (Album.mk p (joinPath (sofar ++ [p])) [] []))
            p (Album.modifySubs (insertPath x (sofar ++ [p]) (r2 :: rrest))) := rfl
      rw [hstep]
      cases q with
      | nil => simp
      | cons k' q' =>
        by_cases hk : k' = p
        · subst hk
          cases q' with
          | nil =>
            rw [nodeAt_single, dictLookup_modify_ensure, if_pos rfl]
            simp only [Option.isSome_some, true_iff]
            exact Or.inr ⟨by simp, r2 :: rrest, by simp⟩
          | cons a b =>
            have hne : (a :: b) ≠ ([] : List String) := by simp
            rw [nodeAt_cons _ _ _ hne, nodeAt_cons _ _ _ hne,
              dictLookup_modify_ensure, if_pos rfl]
            cases hl : dictLookup d k' with
            | none =>
              simp only [Option.getD_none, Album.subs_modifySubs, Album.subs_mk]
              rw [show (nodeAt (insertPath x (sofar ++ [k']) (r2 :: rrest) [])
                    (a :: b)).isSome ↔ _ from
                  ih (by simp) (sofar ++ [k']) [] (a :: b)]
              simp
            | some old =>
              simp only [Option.getD_some, Album.subs_modifySubs]
              rw [show (nodeAt (insertPath x (sofar ++ [k']) (r2 :: rrest) old.subs)
                    (a :: b)).isSome ↔ _ from
                  ih (by simp) (sofar ++ [k']) old.subs (a :: b)]
              simp
        · cases q' with
          | nil =>
            rw [nodeAt_single, dictLookup_modify_ensure, if_neg hk, nodeAt_single]
            simp [hk]
          | cons a b =>
            have hne : (a :: b) ≠ ([] : List String) := by simp
            rw [nodeAt_cons _ _ _ hne, nodeAt_cons _ _ _ hne,
              dictLookup_modify_ensure, if_neg hk]
            simp [hk]

theorem nodeAt_isSome_insertLeaf {α : Type} (d : Albums α) (k s : String) (x : α)
    (q : List String) :
    (nodeAt (insertLeaf d k s x) q).isSome ↔
      (nodeAt d q).isSome ∨ (q ≠ [] ∧ ∃ t, q ++ t = [k]) := by
  rw [nodeAt_insertLeaf]
  by_cases h : q = [k]
  · subst h
    simp
  · rw [if_neg h]
    cases q with
    | nil => simp
    | cons k' q' =>
      simp only [ne_eq, reduceCtorEq, not_false_iff, true_and, List.cons_append]
      constructor
      · exact fun hs => Or.inl hs
      · rintro (hs | ⟨t, ht⟩)
        · exact hs
        · exfalso
          cases q' with
          | nil =>
            simp at ht
            exact h (by simp [ht.1])
          | cons a b =>
            have := congrArg List.length ht
            simp at this

/-! ## Lemmas: `addPhoto` -/

theorem dropLast_cons_cons_ne_nil (r1 r2 : String) (rr : List String) :
    (r1 :: r2 :: rr).dropLast ≠ [] := by
  simp [List.dropLast]

theorem photosAt_addPhoto {α : Type} (d : Albums α) (rel : List String) (x : α)
    (q : List String) :
    photosAt (addPhoto d rel x) q =
      photosAt d q ++ (if rel ≠ [] ∧ q = albumPathOf rel then [x] else []) := by
  cases rel with
  | nil =>
    have h : addPhoto d [] x = d := rfl
    rw [h]
    simp
  | cons r1 rr =>
    cases rr with
    | nil =>
      have h : addPhoto d [r1] x = insertLeaf d "Main" "main" x := rfl
      rw [h, photosAt_insertLeaf]
      have hap : albumPathOf [r1] = ["Main"] := rfl
      simp [hap]
    | cons r2 rrest =>
      have hlen : ¬ ((r1 :: r2 :: rrest).length = 1) := by simp
      have h : addPhoto d (r1 :: r2 :: rrest) x =
          insertPath x [] (r1 :: r2 :: rrest).dropLast d := by
        unfold addPhoto
        rw [if_neg hlen]
      rw [h, photosAt_insertPath x _ (dropLast_cons_cons_ne_nil r1 r2 rrest) [] d q]
      have hap : albumPathOf (r1 :: r2 :: rrest) = (r1 :: r2 :: rrest).dropLast := by
        unfold albumPathOf
        rw [if_neg hlen]
      simp [hap]

theorem nodeAt_isSome_addPhoto {α : Type} (d : Albums α) (rel : List String) (x : α)
    (q : List String) :
    (nodeAt (addPhoto d rel x) q).isSome ↔
      (nodeAt d q).isSome ∨ (rel ≠ [] ∧ q ≠ [] ∧ ∃ t, q ++ t = albumPathOf rel) := by
  cases rel with
  | nil =>
    have h : addPhoto d [] x = d := rfl
    rw [h]
    simp
  | cons r1 rr =>
    cases rr with
    | nil =>
      have h : addPhoto d [r1] x = insertLeaf d "Main" "main" x := rfl
      rw [h, nodeAt_isSome_insertLeaf]
      have hap : albumPathOf [r1] = ["Main"] := rfl
      simp [hap]
    | cons r2 rrest =>
      have hlen : ¬ ((r1 :: r2 :: rrest).length = 1) := by simp
      have h : addPhoto d (r1 :: r2 :: rrest) x =
          insertPath x [] (r1 :: r2 :: rrest).dropLast d := by
        unfold addPhoto
        rw [if_neg hlen]
      rw [h, nodeAt_isSome_insertPath x _ (dropLast_cons_cons_ne_nil r1 r2 rrest) [] d q]
      have hap : albumPathOf (r1 :: r2 :: rrest) = (r1 :: r2 :: rrest).dropLast := by
        unfold albumPathOf
        rw [if_neg hlen]
      simp [hap]

theorem keysOf_mem_addPhoto {α : Type} (d : Albums α) (rel : List String) (x : α)
    (k : String) :
    k ∈ keysOf (addPhoto d rel x) ↔
      k ∈ keysOf d ∨ (rel ≠ [] ∧ firstKey rel = k) := by
  cases rel with
  | nil =>
    have h : addPhoto d [] x = d := rfl
    rw [h]
    simp
  | cons r1 rr =>
    have hkey : ∃ p g v0, addPhoto d (r1 :: rr) x =
        dictModify (dictEnsure d p v0) p g ∧ firstKey (r1 :: rr) = p := by
      cases rr with
      | nil => exact ⟨"Main", _, _, rfl, rfl⟩
      | cons r2 rrest =>
        cases rrest with
        | nil => exact ⟨r1, _, _, rfl, rfl⟩
        | cons r3 rrest2 => exact ⟨r1, _, _, rfl, rfl⟩
    obtain ⟨p, g, v0, heq, hfk⟩ := hkey
    rw [heq, hfk]
    have : keysOf (dictModify (dictEnsure d p v0) p g) =
        if p ∈ keysOf d then keysOf d else keysOf d ++ [p] := keysOf_modify_ensure d p v0 g
    rw [this]
    by_cases hp : p ∈ keysOf d
    · rw [if_pos hp]
      constructor
      · exact fun hm => Or.inl hm
      · rintro (hm | ⟨-, hk⟩)
        · exact hm
        · exact hk ▸ hp
    · rw [if_neg hp]
      simp [eq_comm]

/-! ## Lemmas: well-formedness (no duplicate keys anywhere in the tree) -/

theorem nodeWF_iff {α : Type} (a : Album α) :
    NodeWF a ↔ (keysOf a.subs).Nodup ∧ ∀ kv ∈ a.subs, NodeWF kv.2 := by
  cases a with
  | mk n p ph s =>
    constructor
    · intro h
      cases h with
      | mk _ _ _ _ h1 h2 => exact ⟨h1, h2⟩
    · rintro ⟨h1, h2⟩
      exact NodeWF.mk n p ph s h1 h2

theorem nodeWF_of_empty_subs {α : Type} (n p : String) (ph : List α) :
    NodeWF (Album.mk n p ph []) := by
  refine NodeWF.mk n p ph [] (by simp [keysOf]) ?_
  intro kv hkv
  simp at hkv

theorem nodeWF_appendPhoto {α : Type} (x : α) (a : Album α) (h : NodeWF a) :
    NodeWF (Album.appendPhoto x a) := by
  cases a with
  | mk n p ph s =>
    cases h with
    | mk _ _ _ _ h1 h2 => exact NodeWF.mk n p (ph ++ [x]) s h1 h2

theorem nodeWF_modifySubs {α : Type} (f : Albums α → Albums α) (a : Album α)
    (h : NodeWF a) (hf : AlbumsWF a.subs → AlbumsWF (f a.subs)) :
    NodeWF (Album.modifySubs f a) := by
  cases a with
  | mk n p ph s =>
    cases h with
    | mk _ _ _ _ h1 h2 =>
      obtain ⟨h1', h2'⟩ := hf ⟨h1, h2⟩
      exact NodeWF.mk n p ph (f s) h1' h2'

theorem albumsWF_modify_ensure {α : Type} (d : Albums α) (k : String) (v0 : Album α)
    (g : Album α → Album α) (hd : AlbumsWF d) (hv0 : NodeWF v0)
    (hg : ∀ a, NodeWF a → NodeWF (g a)) :
    AlbumsWF (dictModify (dictEnsure d k v0) k g) := by
  obtain ⟨hnd, hmem⟩ := hd
  constructor
  · rw [keysOf_modify_ensure]
    by_cases hk : k ∈ keysOf d
    · rwa [if_pos hk]
    · rw [if_neg hk]
      simp [List.nodup_append, hnd, hk]
  · intro kv hkv
    rcases dictModify_mem _ _ _ _ hkv with hin | ⟨v, hv, hkveq⟩
    · rcases dictEnsure_mem _ _ _ _ hin with hin2 | hkv0
      · exact hmem kv hin2
      · rw [hkv0]
        exact hv0
    · rw [dictLookup_ensure, if_pos rfl] at hv
      have hveq : (dictLookup d k).getD v0 = v := Option.some.inj hv
      rw [hkveq]
      apply hg
      cases hl : dictLookup d k with
      | none =>
        rw [hl] at hveq
        simp at hveq
        rw [← hveq]
        exact hv0
      | some old =>
        rw [hl] at hveq
        simp at hveq
        rw [← hveq]
        exact hmem (k, old) (dictLookup_mem d k old hl)

theorem albumsWF_insertPath {α : Type} (x : α) :
    ∀ (parts : List String) (sofar : List String) (d : Albums α),
      AlbumsWF d → AlbumsWF (insertPath x sofar parts d) := by
  intro parts
  induction parts with
  | nil => intro sofar d hd; exact hd
  | cons p rest ih =>
    intro sofar d hd
    cases rest with
    | nil =>
      exact albumsWF_modify_ensure d p _ _ hd (nodeWF_of_empty_subs p _ [])
        (fun a ha => nodeWF_appendPhoto x a ha)
    | cons r2 rrest =>
      exact albumsWF_modify_ensure d p _ _ hd (nodeWF_of_empty_subs p _ [])
        (fun a ha => nodeWF_modifySubs _ a ha
          (fun hsub => ih (sofar ++ [p]) a.subs hsub))

theorem albumsWF_addPhoto {α : Type} (d : Albums α) (rel : List String) (x : α)
    (hd : AlbumsWF d) : AlbumsWF (addPhoto d rel x) := by
  cases rel with
  | nil => exact hd
  | cons r1 rr =>
    cases rr with
    | nil =>
      exact albumsWF_modify_ensure d "Main" _ _ hd (nodeWF_of_empty_subs _ _ [])
        (fun a ha => nodeWF_appendPhoto x a ha)
    | cons r2 rrest =>
      have hlen : ¬ ((r1 :: r2 :: rrest).length = 1) := by simp
      have h : addPhoto d (r1 :: r2 :: rrest) x =
          insertPath x [] (r1 :: r2 :: rrest).dropLast d := by
        unfold addPhoto
        rw [if_neg hlen]
      rw [h]
      exact albumsWF_insertPath x _ [] d hd

theorem albumsWF_buildAlbums {α : Type} (ps : List (List String × α)) :
    AlbumsWF (buildAlbums ps) := by
  have hstep : ∀ (l : List (List String × α)) (d : Albums α), AlbumsWF d →
      AlbumsWF (l.foldl (fun d pr => addPhoto d pr.1 pr.2) d) := by
    intro l
    induction l with
    | nil => intro d hd; exact hd
    | cons pr rest ih =>
      intro d hd
      exact ih _ (albumsWF_addPhoto d pr.1 pr.2 hd)
  refine hstep ps [] ⟨by simp [keysOf], ?_⟩
  intro kv hkv
  simp at hkv

/-! ## Lemmas: photo counts through insertion -/

theorem countAllSubs_append {α : Type} (d₁ d₂ : Albums α) :
    countAllSubs (d₁ ++ d₂) = countAllSubs d₁ + countAllSubs d₂ := by
  induction d₁ with
  | nil => simp [countAllSubs]
  | cons kv rest ih =>
    obtain ⟨k, v⟩ := kv
    simp [countAllSubs, ih]
    omega

theorem countAll_appendPhoto {α : Type} (x : α) (a : Album α) :
    countAll (Album.appendPhoto x a) = countAll a + 1 := by
  cases a with
  | mk n p ph s =>
    simp [Album.appendPhoto, countAll]
    omega

theorem countAll_empty_node {α : Type} (n p : String) :
    countAll (Album.mk n p ([] : List α) []) = 0 := by
  simp [countAll, countAllSubs]

theorem countAllSubs_modify {α : Type} (d : Albums α) (k : String)
    (g : Album α → Album α) (hg : ∀ a, countAll (g a) = countAll a + 1) :
    countAllSubs (dictModify d k g) =
      countAllSubs d + (if k ∈ keysOf d then 1 else 0) := by
  induction d with
  | nil => simp [dictModify, countAllSubs, keysOf]
  | cons kv rest ih =>
    obtain ⟨k₁, v₁⟩ := kv
    by_cases h : k₁ = k
    · subst h
      simp [dictModify, countAllSubs, keysOf, hg]
      omega
    · have h2 : ¬ k = k₁ := fun hh => h hh.symm
      have hif : (if k ∈ keysOf ((k₁, v₁) :: rest) then 1 else 0) =
          (if k ∈ keysOf rest then 1 else 0) := by
        have hm : (k ∈ keysOf ((k₁, v₁) :: rest)) ↔ (k ∈ keysOf rest) := by
          simp [keysOf, List.mem_cons, h2]
        by_cases hk : k ∈ keysOf rest
        · rw [if_pos hk, if_pos (hm.mpr hk)]
        · rw [if_neg hk, if_neg (fun hh => hk (hm.mp hh))]
      simp only [dictModify, if_neg h]
      rw [show countAllSubs ((k₁, v₁) :: dictModify rest k g) =
            countAll v₁ + countAllSubs (dictModify rest k g) from rfl,
        ih, hif,
        show countAllSubs ((k₁, v₁) :: rest) = countAll v₁ + countAllSubs rest from rfl]
      omega

theorem countAllSubs_ensure {α : Type} (d : Albums α) (k : String) (v0 : Album α)
    (h0 : countAll v0 = 0) : countAllSubs (dictEnsure d k v0) = countAllSubs d := by
  unfold dictEnsure
  by_cases h : dictContains d k
  · rw [if_pos h]
  · rw [if_neg h, countAllSubs_append]
    simp [countAllSubs, h0]

theorem mem_keysOf_ensure {α : Type} (d : Albums α) (k : String) (v0 : Album α) :
    k ∈ keysOf (dictEnsure d k v0) := by
  rw [keysOf_ensure]
  by_cases h : (dictLookup d k).isSome
  · rw [if_pos h]
    exact (dictLookup_isSome_iff_mem d k).mp h
  · rw [if_neg h]
    simp

theorem countAllSubs_modify_ensure {α : Type} (d : Albums α) (k : String)
    (v0 : Album α) (g : Album α → Album α) (h0 : countAll v0 = 0)
    (hg : ∀ a, countAll (g a) = countAll a + 1) :
    countAllSubs (dictModify (dictEnsure d k v0) k g) = countAllSubs d + 1 := by
  rw [countAllSubs_modify _ _ _ hg, countAllSubs_ensure _ _ _ h0,
    if_pos (mem_keysOf_ensure d k v0)]

theorem countAllSubs_insertPath {α : Type} (x : α) :
    ∀ (parts : List String), parts ≠ [] →
      ∀ (sofar : List String) (d : Albums α),
        countAllSubs (insertPath x sofar parts d) = countAllSubs d + 1 := by
  intro parts
  induction parts with
  | nil => intro h; exact absurd rfl h
  | cons p rest ih =>
    intro _ sofar d
    cases rest with
    | nil =>
      exact countAllSubs_modify_ensure d p _ _ (countAll_empty_node _ _)
        (fun a => countAll_appendPhoto x a)
    | cons r2 rrest =>
      refine countAllSubs_modify_ensure d p _ _ (countAll_empty_node _ _) ?_
      intro a
      cases a with
      | mk n pth ph s =>
        have := ih (by simp) (sofar ++ [p]) s
        simp [Album.modifySubs, countAll, this]
        omega

theorem countAllSubs_addPhoto {α : Type} (d : Albums α) (rel : List String) (x : α) :
    countAllSubs (addPhoto d rel x) =
      countAllSubs d + (if rel ≠ [] then 1 else 0) := by
  cases rel with
  | nil => simp [addPhoto, insertPath]
  | cons r1 rr =>
    cases rr with
    | nil =>
      have h : addPhoto d [r1] x = insertLeaf d "Main" "main" x := rfl
      rw [h]
      have := countAllSubs_modify_ensure d "Main"
        (Album.mk "Main" "main" ([] : List α) []) (Album.appendPhoto x)
        (countAll_empty_node _ _) (fun a => countAll_appendPhoto x a)
      simpa [insertLeaf] using this
    | cons r2 rrest =>
      have hlen : ¬ ((r1 :: r2 :: rrest).length = 1) := by simp
      have h : addPhoto d (r1 :: r2 :: rrest) x =
          insertPath x [] (r1 :: r2 :: rrest).dropLast d := by
        unfold addPhoto
        rw [if_neg hlen]
      rw [h, countAllSubs_insertPath x _ (dropLast_cons_cons_ne_nil r1 r2 rrest) [] d]
      simp

theorem countAllSubs_buildAlbums {α : Type} (ps : List (List String × α)) :
    countAllSubs (buildAlbums ps) =
      (ps.filter (fun pr => !pr.1.isEmpty)).length := by
  have hstep : ∀ (l : List (List String × α)) (d : Albums α),
      countAllSubs (l.foldl (fun d pr => addPhoto d pr.1 pr.2) d) =
        countAllSubs d + (l.filter (fun pr => !pr.1.isEmpty)).length := by
    intro l
    induction l with
    | nil => intro d; simp
    | cons pr rest ih =>
      intro d
      rw [List.foldl_cons, ih, countAllSubs_addPhoto]
      by_cases h : pr.1 = []
      · simp [h, List.filter_cons]
      · simp [h, List.filter_cons, List.isEmpty_iff]
        omega
  have := hstep ps []
  simpa [countAllSubs] using this

/-! ## Lemmas: key paths (one node per distinct path) -/

theorem cnt_append {γ : Type} [DecidableEq γ] (l₁ l₂ : List γ) (x : γ) :
    cnt (l₁ ++ l₂) x = cnt l₁ x + cnt l₂ x := by
  induction l₁ with
  | nil => simp [cnt]
  | cons a l ih =>
    simp [cnt, ih]
    omega

theorem cnt_eq_zero {γ : Type} [DecidableEq γ] (l : List γ) (x : γ) :
    cnt l x = 0 ↔ x ∉ l := by
  induction l with
  | nil => simp [cnt]
  | cons a l ih =>
    by_cases h : a = x
    · subst h
      simp [cnt]
    · have h2 : ¬ x = a := fun hh => h hh.symm
      simp [cnt, h, h2, ih]

theorem cnt_of_nodup {γ : Type} [DecidableEq γ] (l : List γ) (h : l.Nodup) (x : γ) :
    cnt l x = if x ∈ l then 1 else 0 := by
  induction l with
  | nil => simp [cnt]
  | cons a l ih =>
    obtain ⟨ha, hl⟩ := List.nodup_cons.mp h
    by_cases hx : a = x
    · subst hx
      rw [show cnt (a :: l) a = 1 + cnt l a from by simp [cnt]]
      rw [(cnt_eq_zero l a).mpr ha]
      simp
    · have h2 : ¬ x = a := fun hh => hx hh.symm
      simp [cnt, hx, h2, ih hl]

theorem nodup_of_cnt_le_one {γ : Type} [DecidableEq γ] (l : List γ)
    (h : ∀ x, cnt l x ≤ 1) : l.Nodup := by
  induction l with
  | nil => simp
  | cons a l ih =>
    rw [List.nodup_cons]
    constructor
    · have := h a
      rw [show cnt (a :: l) a = 1 + cnt l a from by simp [cnt]] at this
      exact (cnt_eq_zero l a).mp (by omega)
    · refine ih (fun x => ?_)
      have := h x
      rw [show cnt (a :: l) x = (if a = x then 1 else 0) + cnt l x from rfl] at this
      omega

theorem cnt_map_consKey (k : String) (L : List (List String)) (k' : String)
    (q : List String) :
    cnt (L.map (fun r => k :: r)) (k' :: q) = if k' = k then cnt L q else 0 := by
  induction L with
  | nil => simp [cnt]
  | cons r L ih =>
    by_cases hk : k' = k
    · subst hk
      by_cases hr : r = q
      · subst hr
        simp [cnt, ih]
      · have hne : ¬ (k' :: r = k' :: q) := by simp [hr]
        simp [cnt, hne, hr, ih]
    · have hne : ¬ (k :: r = k' :: q) := by
        intro hh
        injection hh with h1 h2
        exact hk h1.symm
      simp [cnt, hne, ih, hk]

theorem cnt_nil_of_ne_nil (L : List (List String)) (h : ∀ q ∈ L, q ≠ []) :
    cnt L [] = 0 :=
  (cnt_eq_zero L []).mpr (fun hmem => h [] hmem rfl)

theorem keyPaths_ne_nil {α : Type} (d : Albums α) : ∀ q ∈ keyPaths d, q ≠ [] := by
  induction d with
  | nil => simp [keyPaths]
  | cons kv rest ih =>
    obtain ⟨k, a⟩ := kv
    intro q hq
    rw [show keyPaths ((k, a) :: rest) =
        [k] :: ((keyPathsNode a).map (fun r => k :: r) ++ keyPaths rest) from rfl] at hq
    rcases List.mem_cons.mp hq with h1 | h2
    · subst h1; simp
    · rcases List.mem_append.mp h2 with h3 | h4
      · obtain ⟨r, _, hr⟩ := List.mem_map.mp h3
        rw [← hr]
        simp
      · exact ih q h4

theorem keyPathsNode_eq_subs {α : Type} (a : Album α) :
    keyPathsNode a = keyPaths a.subs := by
  cases a with
  | mk n p ph s => rfl

theorem cnt_keyPaths_single {α : Type} (d : Albums α) (k : String) :
    cnt (keyPaths d) [k] = cnt (keysOf d) k := by
  induction d with
  | nil => simp [keyPaths, keysOf, cnt]
  | cons kv rest ih =>
    obtain ⟨k₁, a⟩ := kv
    have hkp : keyPaths ((k₁, a) :: rest) =
        [k₁] :: ((keyPathsNode a).map (fun r => k₁ :: r) ++ keyPaths rest) := rfl
    rw [hkp]
    have hmap : cnt ((keyPathsNode a).map (fun r => k₁ :: r)) [k] = 0 := by
      rw [cnt_map_consKey]
      by_cases h : k = k₁
      · rw [if_pos h, keyPathsNode_eq_subs]
        exact cnt_nil_of_ne_nil _ (keyPaths_ne_nil a.subs)
      · rw [if_neg h]
    rw [show cnt ([k₁] :: ((keyPathsNode a).map (fun r => k₁ :: r) ++ keyPaths rest)) [k]
        = (if [k₁] = [k] then 1 else 0)
          + cnt ((keyPathsNode a).map (fun r => k₁ :: r) ++ keyPaths rest) [k] from rfl]
    rw [cnt_append, hmap, ih]
    rw [show keysOf ((k₁, a) :: rest) = k₁ :: keysOf rest from rfl]
    rw [show cnt (k₁ :: keysOf rest) k
        = (if k₁ = k then 1 else 0) + cnt (keysOf rest) k from rfl]
    have hif : (if [k₁] = [k] then 1 else 0) = (if k₁ = k then 1 else 0) := by
      by_cases h : k₁ = k
      · simp [h]
      · simp [h]
    omega

theorem albumsWF_tail {α : Type} (kv : String × Album α) (rest : Albums α)
    (h : AlbumsWF (kv :: rest)) : AlbumsWF rest := by
  obtain ⟨hnd, hm⟩ := h
  exact ⟨(List.nodup_cons.mp hnd).2, fun kv2 hkv2 => hm kv2 (List.mem_cons_of_mem _ hkv2)⟩

theorem albumsWF_head {α : Type} (k : String) (a : Album α) (rest : Albums α)
    (h : AlbumsWF ((k, a) :: rest)) : NodeWF a :=
  h.2 (k, a) (List.mem_cons_self _ _)

theorem albumsWF_head_not_mem {α : Type} (k : String) (a : Album α) (rest : Albums α)
    (h : AlbumsWF ((k, a) :: rest)) : k ∉ keysOf rest :=
  (List.nodup_cons.mp h.1).1

theorem cnt_keyPaths_absent {α : Type} (d : Albums α) (k : String)
    (hk : k ∉ keysOf d) (q' : List String) : cnt (keyPaths d) (k :: q') = 0 := by
  induction d with
  | nil => simp [keyPaths, cnt]
  | cons kv rest ih =>
    obtain ⟨k₂, a⟩ := kv
    have hcons : keysOf ((k₂, a) :: rest) = k₂ :: keysOf rest := rfl
    have hk2 : ¬ k = k₂ := fun hh => hk (by rw [hcons, hh]; exact List.mem_cons_self _ _)
    have hkrest : k ∉ keysOf rest := fun hh => hk (by
      rw [hcons]
      exact List.mem_cons_of_mem _ hh)
    have hkp : keyPaths ((k₂, a) :: rest) =
        [k₂] :: ((keyPathsNode a).map (fun r => k₂ :: r) ++ keyPaths rest) := rfl
    rw [hkp]
    have h1 : ¬ ([k₂] = k :: q') := by
      intro hh
      injection hh with hh1 hh2
      exact hk2 hh1.symm
    rw [show cnt ([k₂] :: ((keyPathsNode a).map (fun r => k₂ :: r) ++ keyPaths rest))
        (k :: q') = (if [k₂] = k :: q' then 1 else 0)
          + cnt ((keyPathsNode a).map (fun r => k₂ :: r) ++ keyPaths rest) (k :: q')
        from rfl]
    rw [if_neg h1, cnt_append, cnt_map_consKey, if_neg hk2, ih hkrest]

theorem cnt_keyPaths_eq {α : Type} :
    ∀ (q : List String) (d : Albums α), AlbumsWF d →
      cnt (keyPaths d) q = if (nodeAt d q).isSome then 1 else 0 := by
  intro q
  induction q with
  | nil =>
    intro d hd
    rw [cnt_nil_of_ne_nil _ (keyPaths_ne_nil d)]
    simp
  | cons k q' ih =>
    intro d hd
    cases q' with
    | nil =>
      rw [cnt_keyPaths_single, cnt_of_nodup _ hd.1, nodeAt_single]
      by_cases h : k ∈ keysOf d
      · rw [if_pos h, if_pos ((dictLookup_isSome_iff_mem d k).mpr h)]
      · rw [if_neg h, if_neg (fun hh => h ((dictLookup_isSome_iff_mem d k).mp hh))]
    | cons a' b' =>
      have hq'ne : (a' :: b') ≠ ([] : List String) := by simp
      revert hd
      induction d with
      | nil =>
        intro hd
        simp [keyPaths, cnt]
      | cons kv rest ihd =>
        intro hd
        obtain ⟨k₁, anode⟩ := kv
        have hkp : keyPaths ((k₁, anode) :: rest) =
            [k₁] :: ((keyPathsNode anode).map (fun r => k₁ :: r) ++ keyPaths rest) := rfl
        have h1 : ¬ ([k₁] = k :: a' :: b') := by
          intro hh
          injection hh with hh1 hh2
          exact absurd hh2 (by simp)
        rw [hkp,
          show cnt ([k₁] :: ((keyPathsNode anode).map (fun r => k₁ :: r) ++ keyPaths rest))
            (k :: a' :: b') = (if [k₁] = k :: a' :: b' then 1 else 0)
              + cnt ((keyPathsNode anode).map (fun r => k₁ :: r) ++ keyPaths rest)
                  (k :: a' :: b') from rfl,
          if_neg h1, cnt_append, cnt_map_consKey]
        by_cases hk : k = k₁
        · subst hk
          have hnode : nodeAt ((k, anode) :: rest) (k :: a' :: b') =
              nodeAt anode.subs (a' :: b') := by
            rw [nodeAt_cons _ _ _ hq'ne]
            simp [dictLookup]
          rw [if_pos rfl, keyPathsNode_eq_subs,
            ih anode.subs ((nodeWF_iff anode).mp (albumsWF_head _ _ _ hd)),
            cnt_keyPaths_absent rest k (albumsWF_head_not_mem _ _ _ hd), hnode]
          omega
        · have hk2 : ¬ k₁ = k := fun hh => hk hh.symm
          have hnode : nodeAt ((k₁, anode) :: rest) (k :: a' :: b') =
              nodeAt rest (k :: a' :: b') := by
            rw [nodeAt_cons _ _ _ hq'ne, nodeAt_cons _ _ _ hq'ne]
            simp [dictLookup, hk2]
          rw [if_neg hk, ihd (albumsWF_tail _ _ hd), hnode]
          omega

/-! ## Lemmas: the full scan fold -/

theorem photosAt_fold {α : Type} (l : List (List String × α)) (d : Albums α)
    (q : List String) :
    photosAt (l.foldl (fun d pr => addPhoto d pr.1 pr.2) d) q =
      photosAt d q ++
        (l.filter (fun pr => decide (pr.1 ≠ [] ∧ q = albumPathOf pr.1))).map Prod.snd := by
  induction l generalizing d with
  | nil => simp
  | cons pr rest ih =>
    rw [List.foldl_cons, ih, photosAt_addPhoto, List.filter_cons]
    by_cases h : pr.1 ≠ [] ∧ q = albumPathOf pr.1
    · rw [if_pos h, if_pos (by simpa using h)]
      simp
    · rw [if_neg h, if_neg (by simpa using h)]
      simp

theorem photosAt_buildAlbums {α : Type} (ps : List (List String × α)) (q : List String) :
    photosAt (buildAlbums ps) q =
      (ps.filter (fun pr => decide (pr.1 ≠ [] ∧ q = albumPathOf pr.1))).map Prod.snd := by
  have := photosAt_fold ps [] q
  simpa using this

theorem nodeAt_isSome_fold {α : Type} (l : List (List String × α)) (d : Albums α)
    (q : List String) :
    (nodeAt (l.foldl (fun d pr => addPhoto d pr.1 pr.2) d) q).isSome ↔
      (nodeAt d q).isSome ∨
        ∃ pr ∈ l, pr.1 ≠ [] ∧ q ≠ [] ∧ ∃ t, q ++ t = albumPathOf pr.1 := by
  induction l generalizing d with
  | nil =>
    simp only [List.foldl_nil]
    constructor
    · exact fun h => Or.inl h
    · rintro (h | ⟨pr2, hpr2, h⟩)
      · exact h
      · exact absurd hpr2 (List.not_mem_nil pr2)
  | cons pr rest ih =>
    rw [List.foldl_cons, ih, nodeAt_isSome_addPhoto]
    constructor
    · rintro ((h | h) | ⟨pr2, hpr2, h⟩)
      · exact Or.inl h
      · exact Or.inr ⟨pr, List.mem_cons_self _ _, h⟩
      · exact Or.inr ⟨pr2, List.mem_cons_of_mem _ hpr2, h⟩
    · rintro (h | ⟨pr2, hpr2, h⟩)
      · exact Or.inl (Or.inl h)
      · rcases List.mem_cons.mp hpr2 with heq | hmem
        · exact Or.inl (Or.inr (heq ▸ h))
        · exact Or.inr ⟨pr2, hmem, h⟩

theorem nodeAt_isSome_buildAlbums {α : Type} (ps : List (List String × α))
    (q : List String) :
    (nodeAt (buildAlbums ps) q).isSome ↔
      ∃ pr ∈ ps, pr.1 ≠ [] ∧ q ≠ [] ∧ ∃ t, q ++ t = albumPathOf pr.1 := by
  rw [buildAlbums, nodeAt_isSome_fold]
  simp only [nodeAt_empty, Option.isSome_none, Bool.false_eq_true, false_or]

theorem keyPaths_buildAlbums_nodup {α : Type} (ps : List (List String × α)) :
    (keyPaths (buildAlbums ps)).Nodup := by
  refine nodup_of_cnt_le_one _ (fun q => ?_)
  rw [cnt_keyPaths_eq q _ (albumsWF_buildAlbums ps)]
  by_cases h : (nodeAt (buildAlbums ps) q).isSome
  · rw [if_pos h]
  · rw [if_neg h]
    omega

theorem mem_keyPaths_buildAlbums {α : Type} (ps : List (List String × α))
    (q : List String) :
    q ∈ keyPaths (buildAlbums ps) ↔
      ∃ pr ∈ ps, pr.1 ≠ [] ∧ q ≠ [] ∧ ∃ t, q ++ t = albumPathOf pr.1 := by
  rw [← nodeAt_isSome_buildAlbums]
  have hcnt := cnt_keyPaths_eq q _ (albumsWF_buildAlbums ps)
  constructor
  · intro hmem
    by_cases h : (nodeAt (buildAlbums ps) q).isSome
    · exact h
    · rw [if_neg h] at hcnt
      exact absurd ((cnt_eq_zero _ _).mp hcnt) (fun hh => hh hmem)
  · intro h
    rw [if_pos h] at hcnt
    by_contra hmem
    rw [(cnt_eq_zero _ _).mpr hmem] at hcnt
    exact absurd hcnt (by omega)

/-- The root mapping keys, characterised over the fold. -/
theorem mem_keysOf_fold {α : Type} (l : List (List String × α)) (d : Albums α)
    (k : String) :
    k ∈ keysOf (l.foldl (fun d pr => addPhoto d pr.1 pr.2) d) ↔
      k ∈ keysOf d ∨ ∃ pr ∈ l, pr.1 ≠ [] ∧ firstKey pr.1 = k := by
  induction l generalizing d with
  | nil =>
    simp only [List.foldl_nil]
    constructor
    · exact fun h => Or.inl h
    · rintro (h | ⟨pr2, hpr2, h⟩)
      · exact h
      · exact absurd hpr2 (List.not_mem_nil pr2)
  | cons pr rest ih =>
    rw [List.foldl_cons, ih]
    constructor
    · rintro (h | ⟨pr2, hpr2, h⟩)
      · rcases (keysOf_mem_addPhoto d pr.1 pr.2 k).mp h with h2 | h2
        · exact Or.inl h2
        · exact Or.inr ⟨pr, List.mem_cons_self _ _, h2⟩
      · exact Or.inr ⟨pr2, List.mem_cons_of_mem _ hpr2, h⟩
    · rintro (h | ⟨pr2, hpr2, h⟩)
      · exact Or.inl ((keysOf_mem_addPhoto d pr.1 pr.2 k).mpr (Or.inl h))
      · rcases List.mem_cons.mp hpr2 with heq | hmem
        · exact Or.inl ((keysOf_mem_addPhoto d pr.1 pr.2 k).mpr (Or.inr (heq ▸ h)))
        · exact Or.inr ⟨pr2, hmem, h⟩

theorem mem_keysOf_buildAlbums {α : Type} (ps : List (List String × α)) (k : String) :
    k ∈ keysOf (buildAlbums ps) ↔ ∃ pr ∈ ps, pr.1 ≠ [] ∧ firstKey pr.1 = k := by
  rw [buildAlbums, mem_keysOf_fold]
  simp only [keysOf, List.map_nil, List.not_mem_nil, false_or]

/-! ## Lemmas: processing and aggregation -/

@[simp] theorem countAllP_mk {β : Type} (n p : String) (ph : List β) (s : PAlbums β)
    (t : Nat) (c : Option β) :
    countAllP (PAlbum.mk n p ph s t c) = ph.length + countAllPSubs s := rfl

@[simp] theorem PAlbum.photosOf_mk {β : Type} (n p : String) (ph : List β)
    (s : PAlbums β) (t : Nat) (c : Option β) :
    (PAlbum.mk n p ph s t c).photos = ph := rfl

@[simp] theorem PAlbum.subsOf_mk {β : Type} (n p : String) (ph : List β)
    (s : PAlbums β) (t : Nat) (c : Option β) :
    (PAlbum.mk n p ph s t c).subs = s := rfl

@[simp] theorem PAlbum.totalPhotos_mk {β : Type} (n p : String) (ph : List β)
    (s : PAlbums β) (t : Nat) (c : Option β) :
    (PAlbum.mk n p ph s t c).totalPhotos = t := rfl

@[simp] theorem PAlbum.coverPhoto_mk {β : Type} (n p : String) (ph : List β)
    (s : PAlbums β) (t : Nat) (c : Option β) :
    (PAlbum.mk n p ph s t c).coverPhoto = c := rfl

theorem processNode_eq {α β : Type} (f : String → Nat → α → β) (name n p : String)
    (ph : List α) (s : Albums α) :
    processNode f name (Album.mk n p ph s) =
      PAlbum.mk name p ((List.enumFrom 1 ph).map (fun ip => f p ip.1 ip.2))
        (processAlbums f s)
        (countAllP (PAlbum.mk name p ((List.enumFrom 1 ph).map (fun ip => f p ip.1 ip.2))
          (processAlbums f s) 0 none))
        (getFirstP (PAlbum.mk name p ((List.enumFrom 1 ph).map (fun ip => f p ip.1 ip.2))
          (processAlbums f s) 0 none)) := rfl

mutual

theorem countAllP_processNode {α β : Type} (f : String → Nat → α → β) (name : String)
    (a : Album α) : countAllP (processNode f name a) = countAll a := by
  cases a with
  | mk n p ph s =>
    rw [processNode_eq, countAllP_mk, countAllPSubs_processAlbums f s]
    show (List.enumFrom 1 ph |>.map _).length + countAllSubs s = countAll (Album.mk n p ph s)
    rw [List.length_map, List.enumFrom_length]
    rfl

theorem countAllPSubs_processAlbums {α β : Type} (f : String → Nat → α → β)
    (d : Albums α) : countAllPSubs (processAlbums f d) = countAllSubs d := by
  cases d with
  | nil => rfl
  | cons kv rest =>
    obtain ⟨k, a⟩ := kv
    show countAllP (processNode f k a) + countAllPSubs (processAlbums f rest) =
      countAll a + countAllSubs rest
    rw [countAllP_processNode f k a, countAllPSubs_processAlbums f rest]

end

mutual

theorem getFirstP_isSome_of_pos {β : Type} (n : PAlbum β) (h : 0 < countAllP n) :
    (getFirstP n).isSome := by
  cases n with
  | mk nm p ph s t c =>
    cases ph with
    | cons x xs => simp [getFirstP]
    | nil =>
      have hs : 0 < countAllPSubs s := by
        rw [countAllP_mk] at h
        simpa using h
      have := getFirstPSubs_isSome_of_pos s hs
      simpa [getFirstP] using this

theorem getFirstPSubs_isSome_of_pos {β : Type} (l : PAlbums β)
    (h : 0 < countAllPSubs l) : (getFirstPSubs l).isSome := by
  cases l with
  | nil => simp [countAllPSubs] at h
  | cons kv rest =>
    obtain ⟨k, a⟩ := kv
    cases ha : getFirstP a with
    | some x => simp [getFirstPSubs, ha]
    | none =>
      have hza : countAllP a = 0 := by
        by_contra hz
        have := getFirstP_isSome_of_pos a (by omega)
        rw [ha] at this
        simp at this
      have hrest : 0 < countAllPSubs rest := by
        rw [show countAllPSubs ((k, a) :: rest) = countAllP a + countAllPSubs rest
          from rfl] at h
        omega
      have := getFirstPSubs_isSome_of_pos rest hrest
      simpa [getFirstPSubs, ha] using this

end

theorem dictLookup_processAlbums {α β : Type} (f : String → Nat → α → β)
    (d : Albums α) (k : String) :
    dictLookup (processAlbums f d) k = (dictLookup d k).map (processNode f k) := by
  induction d with
  | nil => rfl
  | cons kv rest ih =>
    obtain ⟨k₁, a⟩ := kv
    by_cases h : k₁ = k
    · subst h
      simp [processAlbums, dictLookup]
    · simp [processAlbums, dictLookup, h, ih]

theorem PAlbum.subs_processNode {α β : Type} (f : String → Nat → α → β)
    (name : String) (a : Album α) :
    (processNode f name a).subs = processAlbums f a.subs := by
  cases a with
  | mk n p ph s => rfl

theorem nodeAtP_processAlbums {α β : Type} (f : String → Nat → α → β) :
    ∀ (q : List String) (d : Albums α) (n' : PAlbum β),
      nodeAtP (processAlbums f d) q = some n' →
        ∃ (name : String) (a : Album α), nodeAt d q = some a ∧
          n' = processNode f name a := by
  intro q
  induction q with
  | nil => intro d n' h; exact absurd h (by simp [nodeAtP])
  | cons k q' ih =>
    intro d n' h
    cases q' with
    | nil =>
      rw [show nodeAtP (processAlbums f d) [k] = dictLookup (processAlbums f d) k
          from rfl, dictLookup_processAlbums] at h
      cases hl : dictLookup d k with
      | none => rw [hl] at h; simp at h
      | some a =>
        rw [hl] at h
        simp at h
        exact ⟨k, a, by rw [nodeAt_single, hl], h.symm⟩
    | cons a' b' =>
      rw [show nodeAtP (processAlbums f d) (k :: a' :: b') =
          (match dictLookup (processAlbums f d) k with
            | none => none
            | some n => nodeAtP n.subs (a' :: b')) from rfl,
        dictLookup_processAlbums] at h
      cases hl : dictLookup d k with
      | none => rw [hl] at h; simp at h
      | some a =>
        rw [hl] at h
        have h2 : nodeAtP (processNode f k a).subs (a' :: b') = some n' := h
        rw [PAlbum.subs_processNode] at h2
        obtain ⟨name, a2, ha2, hn'⟩ := ih a.subs n' h2
        refine ⟨name, a2, ?_, hn'⟩
        rw [nodeAt_cons _ _ _ (by simp), hl]
        exact ha2

theorem totalPhotos_processNode {α β : Type} (f : String → Nat → α → β)
    (name : String) (a : Album α) :
    (processNode f name a).totalPhotos = countAllP (processNode f name a) := by
  cases a with
  | mk n p ph s => rfl

theorem coverPhoto_processNode {α β : Type} (f : String → Nat → α → β)
    (name : String) (a : Album α) :
    (processNode f name a).coverPhoto = getFirstP (processNode f name a) := by
  cases a with
  | mk n p ph s => rfl

theorem getFirstP_of_head {β : Type} (n : PAlbum β) (p : β) (rest : List β)
    (h : n.photos = p :: rest) : getFirstP n = some p := by
  cases n with
  | mk nm pth ph s t c =>
    rw [PAlbum.photosOf_mk] at h
    subst h
    rfl

theorem getFirstP_of_no_photos {β : Type} (n : PAlbum β) (h : n.photos = []) :
    getFirstP n = getFirstPSubs n.subs := by
  cases n with
  | mk nm pth ph s t c =>
    rw [PAlbum.photosOf_mk] at h
    subst h
    rfl

theorem sumTop_processAlbums {α β : Type} (f : String → Nat → α → β) (d : Albums α) :
    ((processAlbums f d).map (fun kv => kv.2.totalPhotos)).sum = countAllSubs d := by
  induction d with
  | nil => rfl
  | cons kv rest ih =>
    obtain ⟨k, a⟩ := kv
    rw [show processAlbums f ((k, a) :: rest) =
        (k, processNode f k a) :: processAlbums f rest from rfl]
    rw [List.map_cons, List.sum_cons, ih, totalPhotos_processNode,
      countAllP_processNode]
    rfl

/-! ## Lemmas: the staleness oracle -/

theorem checkNewer_ne_none (fs : String → Option Int) (srcM : Int) :
    ∀ (outs : List String), (∀ o ∈ outs, (fs o).isSome) →
      checkNewer fs srcM outs ≠ none := by
  intro outs
  induction outs with
  | nil => intro _ h; simp [checkNewer] at h
  | cons o rest ih =>
    intro hall
    have ho := hall o (List.mem_cons_self _ _)
    obtain ⟨m, hm⟩ := Option.isSome_iff_exists.mp ho
    intro hcontra
    by_cases hle : m ≤ srcM
    · simp [checkNewer, hm, hle] at hcontra
    · simp [checkNewer, hm, hle] at hcontra
      exact ih (fun o2 ho2 => hall o2 (List.mem_cons_of_mem _ ho2)) hcontra

theorem checkNewer_eq_true_iff (fs : String → Option Int) (srcM : Int) :
    ∀ (outs : List String),
      checkNewer fs srcM outs = some true ↔
        ∀ o ∈ outs, ∃ m, fs o = some m ∧ srcM < m := by
  intro outs
  induction outs with
  | nil => simp [checkNewer]
  | cons o rest ih =>
    cases hm : fs o with
    | none =>
      constructor
      · intro h
        simp [checkNewer, hm] at h
      · intro h
        obtain ⟨m, hm2, _⟩ := h o (List.mem_cons_self _ _)
        rw [hm] at hm2
        exact absurd hm2 (by simp)
    | some m =>
      by_cases hle : m ≤ srcM
      · constructor
        · intro h
          simp [checkNewer, hm, hle] at h
        · intro h
          obtain ⟨m2, hm2, hlt⟩ := h o (List.mem_cons_self _ _)
          rw [hm] at hm2
          injection hm2 with hm3
          omega
      · rw [show checkNewer fs srcM (o :: rest) = checkNewer fs srcM rest from by
          simp [checkNewer, hm, hle], ih]
        constructor
        · intro h o2 ho2
          rcases List.mem_cons.mp ho2 with heq | hmem
          · exact heq ▸ ⟨m, hm, by omega⟩
          · exact h o2 hmem
        · intro h o2 ho2
          exact h o2 (List.mem_cons_of_mem _ ho2)

theorem shouldSkip_false_of_missing (fs : String → Option Int) (src : String)
    (outs : List String) (h : ∃ o ∈ outs, fs o = none) :
    shouldSkipProcessing fs src outs = some false := by
  obtain ⟨o, ho, hnone⟩ := h
  unfold shouldSkipProcessing
  rw [if_neg]
  intro hall
  rw [List.all_eq_true] at hall
  have := hall o ho
  rw [hnone] at this
  simp at this

theorem shouldSkip_none_iff (fs : String → Option Int) (src : String)
    (outs : List String) :
    shouldSkipProcessing fs src outs = none ↔
      (∀ o ∈ outs, (fs o).isSome) ∧ fs src = none := by
  unfold shouldSkipProcessing
  by_cases hall : outs.all (fun p => (fs p).isSome)
  · rw [if_pos hall]
    rw [List.all_eq_true] at hall
    have hall' : ∀ o ∈ outs, (fs o).isSome := fun o ho => by simpa using hall o ho
    cases hs : fs src with
    | none =>
      constructor
      · intro _
        exact ⟨hall', rfl⟩
      · intro _
        rfl
    | some ms =>
      constructor
      · intro h
        exact absurd h (checkNewer_ne_none fs ms outs hall')
      · rintro ⟨-, hcontra⟩
        exact absurd hcontra (by simp)
  · rw [if_neg hall]
    constructor
    · intro h; exact absurd h (by simp)
    · rintro ⟨h1, -⟩
      exact absurd (List.all_eq_true.mpr (fun o ho => by simpa using h1 o ho)) hall

theorem shouldSkip_true_iff (fs : String → Option Int) (src : String)
    (outs : List String) (ms : Int) (hs : fs src = some ms) :
    shouldSkipProcessing fs src outs = some true ↔
      ∀ o ∈ outs, ∃ m, fs o = some m ∧ ms < m := by
  unfold shouldSkipProcessing
  by_cases hall : outs.all (fun p => (fs p).isSome)
  · rw [if_pos hall, hs]
    exact checkNewer_eq_true_iff fs ms outs
  · rw [if_neg hall]
    constructor
    · intro h; exact absurd h (by simp)
    · intro h
      exfalso
      apply hall
      rw [List.all_eq_true]
      intro o ho
      obtain ⟨m, hm, -⟩ := h o ho
      simp [hm]

theorem shouldSkip_ne_none_of_src (fs : String → Option Int) (src : String)
    (outs : List String) (ms : Int) (hs : fs src = some ms) :
    shouldSkipProcessing fs src outs ≠ none := by
  intro h
  have := (shouldSkip_none_iff fs src outs).mp h
  rw [hs] at this
  exact absurd this.2 (by simp)

theorem shouldSkip_empty_outputs (fs : String → Option Int) (src : String)
    (ms : Int) (hs : fs src = some ms) :
    shouldSkipProcessing fs src [] = some true := by
  unfold shouldSkipProcessing
  rw [if_pos (by simp), hs]
  rfl

/-! ## Lemmas: characters, slugs and breadcrumbs -/

theorem char_toNat_ofNat_valid (n : Nat) (h : n.isValidChar) :
    (Char.ofNat n).toNat = n := by
  unfold Char.ofNat
  rw [dif_pos h]
  simp [Char.ofNatAux, Char.toNat, UInt32.toNat]

theorem char_toLower_shift (c : Char) :
    Char.toLower c = c ∨
      (97 ≤ (Char.toLower c).toNat ∧ (Char.toLower c).toNat ≤ 122) := by
  unfold Char.toLower
  by_cases h : c.toNat ≥ 65 ∧ c.toNat ≤ 90
  · rw [if_pos h]
    right
    have hv : (c.toNat + 32).isValidChar := Or.inl (by omega)
    rw [char_toNat_ofNat_valid _ hv]
    omega
  · rw [if_neg h]
    left
    rfl

theorem char_toLower_ne_space (c : Char) (h : c ≠ ' ') : Char.toLower c ≠ ' ' := by
  rcases char_toLower_shift c with heq | ⟨h1, h2⟩
  · rw [heq]; exact h
  · intro hh
    rw [hh] at h1
    exact absurd h1 (by decide)

theorem char_toLower_ne_slash (c : Char) (h : c ≠ '/') : Char.toLower c ≠ '/' := by
  rcases char_toLower_shift c with heq | ⟨h1, h2⟩
  · rw [heq]; exact h
  · intro hh
    rw [hh] at h1 h2
    exact absurd (And.intro h1 h2) (by decide)

/-- The two orders the code applies the slug substitutions in coincide on
every character. -/
theorem slug_pointwise (c : Char) :
    (if Char.toLower (if c = '/' then '-' else c) = ' ' then '-'
     else Char.toLower (if c = '/' then '-' else c)) =
    (if (if Char.toLower c = ' ' then '-' else Char.toLower c) = '/' then '-'
     else (if Char.toLower c = ' ' then '-' else Char.toLower c)) := by
  by_cases h1 : c = '/'
  · subst h1
    decide
  · by_cases h2 : c = ' '
    · subst h2
      decide
    · have hsp : Char.toLower c ≠ ' ' := char_toLower_ne_space c h2
      have hsl : Char.toLower c ≠ '/' := char_toLower_ne_slash c h1
      rw [if_neg h1, if_neg hsp, if_neg hsl]

theorem map_slashRep_of_not_mem (l : List Char) (h : '/' ∉ l) :
    l.map (fun c => if c = '/' then '-' else c) = l := by
  induction l with
  | nil => rfl
  | cons c rest ih =>
    have hc : c ≠ '/' := fun hh => h (hh ▸ List.mem_cons_self _ _)
    have hrest : '/' ∉ rest := fun hh => h (List.mem_cons_of_mem _ hh)
    simp [hc, ih hrest]

theorem joinChars_dash_eq (L : List (List Char)) (h : ∀ l ∈ L, '/' ∉ l) :
    joinChars '-' L = (joinChars '/' L).map (fun c => if c = '/' then '-' else c) := by
  induction L with
  | nil => rfl
  | cons l L2 ih =>
    cases L2 with
    | nil =>
      rw [show joinChars '-' [l] = l from rfl, show joinChars '/' [l] = l from rfl]
      exact (map_slashRep_of_not_mem l (h l (List.mem_cons_self _ _))).symm
    | cons l2 rest =>
      rw [show joinChars '-' (l :: l2 :: rest) = l ++ '-' :: joinChars '-' (l2 :: rest)
          from rfl,
        show joinChars '/' (l :: l2 :: rest) = l ++ '/' :: joinChars '/' (l2 :: rest)
          from rfl]
      rw [List.map_append, List.map_cons]
      rw [map_slashRep_of_not_mem l (h l (List.mem_cons_self _ _))]
      rw [ih (fun l3 hl3 => h l3 (List.mem_cons_of_mem _ hl3))]
      rfl

theorem splitChar_ne_nil (sep : Char) (l : List Char) : splitChar sep l ≠ [] := by
  cases l with
  | nil => simp [splitChar]
  | cons c rest =>
    rw [show splitChar sep (c :: rest) =
        (match splitChar sep rest with
          | [] => [[]]
          | s :: ss => if c = sep then [] :: s :: ss else (c :: s) :: ss) from rfl]
    cases hs : splitChar sep rest with
    | nil => simp
    | cons s ss =>
      by_cases hc : c = sep <;> simp [hc]

theorem splitChar_not_mem (sep : Char) (l : List Char) :
    ∀ r ∈ splitChar sep l, sep ∉ r := by
  induction l with
  | nil =>
    intro r hr
    rw [show splitChar sep [] = [[]] from rfl] at hr
    simp at hr
    simp [hr]
  | cons c rest ih =>
    intro r hr
    rw [show splitChar sep (c :: rest) =
        (match splitChar sep rest with
          | [] => [[]]
          | s :: ss => if c = sep then [] :: s :: ss else (c :: s) :: ss) from rfl] at hr
    cases hs : splitChar sep rest with
    | nil => exact absurd hs (splitChar_ne_nil sep rest)
    | cons s ss =>
      rw [hs] at hr
      rw [show (match s :: ss with
          | [] => [[]]
          | s :: ss => if c = sep then [] :: s :: ss else (c :: s) :: ss)
          = if c = sep then [] :: s :: ss else (c :: s) :: ss from rfl] at hr
      by_cases hc : c = sep
      · rw [if_pos hc] at hr
        rcases List.mem_cons.mp hr with h1 | h2
        · subst h1; simp
        · exact ih r (hs ▸ h2)
      · rw [if_neg hc] at hr
        rcases List.mem_cons.mp hr with h1 | h2
        · subst h1
          intro hmem
          rcases List.mem_cons.mp hmem with h3 | h4
          · exact hc h3.symm
          · exact ih s (hs ▸ List.mem_cons_self _ _) h4
        · exact ih r (hs ▸ List.mem_cons_of_mem _ h2)

theorem joinChars_splitChar (sep : Char) (l : List Char) :
    joinChars sep (splitChar sep l) = l := by
  induction l with
  | nil => rfl
  | cons c rest ih =>
    rw [show splitChar sep (c :: rest) =
        (match splitChar sep rest with
          | [] => [[]]
          | s :: ss => if c = sep then [] :: s :: ss else (c :: s) :: ss) from rfl]
    cases hs : splitChar sep rest with
    | nil => exact absurd hs (splitChar_ne_nil sep rest)
    | cons s ss =>
      rw [hs] at ih
      rw [show (match s :: ss with
          | [] => [[]]
          | s :: ss => if c = sep then [] :: s :: ss else (c :: s) :: ss)
          = if c = sep then [] :: s :: ss else (c :: s) :: ss from rfl]
      by_cases hc : c = sep
      · rw [if_pos hc]
        rw [show joinChars sep ([] :: s :: ss) = [] ++ sep :: joinChars sep (s :: ss)
            from rfl]
        rw [List.nil_append, ih, hc]
      · rw [if_neg hc]
        cases ss with
        | nil =>
          rw [show joinChars sep [c :: s] = c :: s from rfl]
          rw [show joinChars sep [s] = s from rfl] at ih
          rw [ih]
        | cons s2 ss2 =>
          rw [show joinChars sep ((c :: s) :: s2 :: ss2) =
              (c :: s) ++ sep :: joinChars sep (s2 :: ss2) from rfl]
          rw [show joinChars sep (s :: s2 :: ss2) =
              s ++ sep :: joinChars sep (s2 :: ss2) from rfl] at ih
          rw [List.cons_append, ih]

theorem string_eq_of_data (s t : String) (h : s.data = t.data) : s = t := by
  cases s
  cases t
  exact congrArg String.mk h

@[simp] theorem data_mk (l : List Char) : (String.mk l).data = l := rfl

@[simp] theorem data_replaceCh (a b : Char) (s : String) :
    (replaceCh a b s).data = s.data.map (fun c => if c = a then b else c) := rfl

@[simp] theorem data_lowerStr (s : String) :
    (lowerStr s).data = s.data.map Char.toLower := rfl

@[simp] theorem data_joinSep (sep : Char) (parts : List String) :
    (joinSep sep parts).data = joinChars sep (parts.map String.data) := rfl

/-- The slug the breadcrumb loop computes for a segment list equals the
spec's slug rule, whenever no segment contains a `/` (true of anything
produced by splitting on `/`). -/
theorem codeSlug_eq_slugSpec (parts : List String)
    (h : ∀ p ∈ parts, '/' ∉ p.data) :
    replaceCh ' ' '-' (lowerStr (joinSep '-' parts)) = slugSpec parts := by
  apply string_eq_of_data
  unfold slugSpec
  simp only [data_replaceCh, data_lowerStr, data_joinSep]
  rw [joinChars_dash_eq (parts.map String.data)
    (fun l hl => by
      obtain ⟨p, hp, hpd⟩ := List.mem_map.mp hl
      exact hpd ▸ h p hp)]
  simp only [List.map_map]
  refine List.map_congr_left (fun y hy => ?_)
  simpa [Function.comp] using slug_pointwise y

theorem splitSlash_no_slash (s : String) : ∀ p ∈ splitSlash s, '/' ∉ p.data := by
  intro p hp
  unfold splitSlash at hp
  obtain ⟨r, hr, hrp⟩ := List.mem_map.mp hp
  rw [← hrp]
  exact splitChar_not_mem '/' s.data r hr

theorem map_data_mk (L : List (List Char)) :
    List.map (String.data ∘ String.mk) L = L := by
  induction L with
  | nil => rfl
  | cons a l ih => simp [Function.comp, ih]

theorem joinSep_splitSlash (s : String) : joinSep '/' (splitSlash s) = s := by
  apply string_eq_of_data
  unfold splitSlash
  simp only [data_joinSep, List.map_map]
  rw [map_data_mk]
  exact joinChars_splitChar '/' s.data

/-- `_build_breadcrumb` computes exactly the spec's breadcrumb: one entry
per segment after Home, capitalized display name, slug-of-path-so-far URL
(the `main` special case coincides with the general rule). -/
theorem buildBreadcrumb_eq_spec (path : String) :
    buildBreadcrumb path = breadcrumbSpec path := by
  by_cases h : path = "main"
  · subst h
    rfl
  · unfold buildBreadcrumb breadcrumbSpec
    rw [if_neg h]
    refine congrArg (List.cons _) ?_
    refine List.map_congr_left (fun ip hip => ?_)
    rw [codeSlug_eq_slugSpec ((splitSlash path).take (ip.1 + 1))
      (fun p hp => splitSlash_no_slash path p (List.take_subset _ _ hp))]

/-- The slug the breadcrumb computes for a node's full path equals the
album page filename slug of `_render_album_pages`. -/
theorem breadcrumbSlug_agrees (path : String) :
    replaceCh ' ' '-' (lowerStr (joinSep '-' (splitSlash path))) = slugPage path := by
  rw [codeSlug_eq_slugSpec _ (splitSlash_no_slash path)]
  unfold slugSpec
  rw [joinSep_splitSlash]
  rfl

/-! ## Lemmas: `process_image` and the orchestrator -/

theorem processImage_no_skip (cfg : Config) (fs : String → Option Int)
    (dims : String → Option (Nat × Nat)) (transform : String → String → Nat → ImgInfo)
    (src : SourceRef) (albumPath : String) (idx : Nat) :
    processImage cfg fs dims transform src albumPath idx false =
      { info := some (transform albumPath (outFilename cfg src idx).1 idx),
        consultedOracle := false, regenerated := true } := rfl

theorem processImage_skip_true (cfg : Config) (fs : String → Option Int)
    (dims : String → Option (Nat × Nat)) (transform : String → String → Nat → ImgInfo)
    (src : SourceRef) (albumPath : String) (idx : Nat)
    (hskip : shouldSkipProcessing fs src.path (outputsFor cfg src albumPath idx) =
      some true) :
    processImage cfg fs dims transform src albumPath idx true =
      { info := buildImageInfo cfg fs dims albumPath (outFilename cfg src idx).1
          (fullPathFor cfg src albumPath idx)
          (if cfg.generateWebp then some (outFilename cfg src idx).2 else none),
        consultedOracle := true, regenerated := false } := by
  unfold processImage
  rw [hskip]
  rfl

theorem buildImageInfo_fields (cfg : Config) (fs : String → Option Int)
    (dims : String → Option (Nat × Nat)) (albumPath filename fullPath : String)
    (webpStem : Option String) (w h : Nat) (hdims : dims fullPath = some (w, h)) :
    ∃ info, buildImageInfo cfg fs dims albumPath filename fullPath webpStem =
        some info ∧
      info.filename = filename ∧ info.width = w ∧ info.height = h ∧
      info.exif = none := by
  unfold buildImageInfo
  rw [hdims]
  exact ⟨_, rfl, rfl, rfl, rfl, rfl⟩

mutual

theorem albumOutcomes_mem (g : String → Nat → SourceRef → PIOut) :
    ∀ (d : Albums SourceRef), ∀ out ∈ albumOutcomes g d,
      ∃ p i s, out = g p i s := by
  intro d
  cases d with
  | nil =>
    intro out h
    exact absurd h (by simp [albumOutcomes])
  | cons kv rest =>
    intro out h
    obtain ⟨k, a⟩ := kv
    rw [show albumOutcomes g ((k, a) :: rest) =
        nodeOutcomes g a ++ albumOutcomes g rest from rfl] at h
    rcases List.mem_append.mp h with h1 | h2
    · exact nodeOutcomes_mem g a out h1
    · exact albumOutcomes_mem g rest out h2

theorem nodeOutcomes_mem (g : String → Nat → SourceRef → PIOut) :
    ∀ (a : Album SourceRef), ∀ out ∈ nodeOutcomes g a,
      ∃ p i s, out = g p i s := by
  intro a
  cases a with
  | mk n path ph subs =>
    intro out h
    rw [show nodeOutcomes g (Album.mk n path ph subs) =
        (List.enumFrom 1 ph).map (fun ip => g path ip.1 ip.2) ++
          albumOutcomes g subs from rfl] at h
    rcases List.mem_append.mp h with h1 | h2
    · obtain ⟨ip, _, hip⟩ := List.mem_map.mp h1
      exact ⟨path, ip.1, ip.2, hip.symm⟩
    · exact albumOutcomes_mem g subs out h2

end

theorem runBuild_empty (cfg : Config) (force : Bool) (fs : String → Option Int)
    (dims : String → Option (Nat × Nat)) (transform : String → String → Nat → ImgInfo)
    (render : List String → List String) (ps : List (List String × SourceRef))
    (buildDir : Option (List String))
    (h : scanPhotos ps = ScanResult.albums []) :
    runBuild cfg force fs dims transform render ps buildDir =
      { cleanIncremental := cfg.incremental && !force, stoppedEmpty := true,
        outcomes := [], rendered := false,
        outItems := cleanBuild (cfg.incremental && !force) buildDir } := by
  unfold runBuild
  rw [h]

theorem runBuild_single (cfg : Config) (force : Bool) (fs : String → Option Int)
    (dims : String → Option (Nat × Nat)) (transform : String → String → Nat → ImgInfo)
    (render : List String → List String) (ps : List (List String × SourceRef))
    (buildDir : Option (List String)) (ph : List SourceRef)
    (h : scanPhotos ps = ScanResult.single ph) :
    runBuild cfg force fs dims transform render ps buildDir =
      { cleanIncremental := cfg.incremental && !force, stoppedEmpty := false,
        outcomes := (List.enumFrom 1 ph).map (fun ip =>
          processImage cfg fs dims transform ip.2 "" ip.1
            (cfg.incremental && !force)),
        rendered := true,
        outItems := render (cleanBuild (cfg.incremental && !force) buildDir) } := by
  unfold runBuild
  rw [h]

theorem runBuild_nested (cfg : Config) (force : Bool) (fs : String → Option Int)
    (dims : String → Option (Nat × Nat)) (transform : String → String → Nat → ImgInfo)
    (render : List String → List String) (ps : List (List String × SourceRef))
    (buildDir : Option (List String)) (kv : String × Album SourceRef)
    (rest : Albums SourceRef)
    (h : scanPhotos ps = ScanResult.albums (kv :: rest)) :
    runBuild cfg force fs dims transform render ps buildDir =
      { cleanIncremental := cfg.incremental && !force, stoppedEmpty := false,
        outcomes := albumOutcomes (fun path idx src =>
          processImage cfg fs dims transform src path idx
            (cfg.incremental && !force)) (kv :: rest),
        rendered := true,
        outItems := render (cleanBuild (cfg.incremental && !force) buildDir) } := by
  unfold runBuild
  rw [h]

/-- Every `process_image` outcome the build produces is an application of
`process_image` with `skip_if_current` equal to the effective incremental
flag. -/
theorem runBuild_outcome_mem (cfg : Config) (force : Bool) (fs : String → Option Int)
    (dims : String → Option (Nat × Nat)) (transform : String → String → Nat → ImgInfo)
    (render : List String → List String) (ps : List (List String × SourceRef))
    (buildDir : Option (List String)) :
    ∀ out ∈ (runBuild cfg force fs dims transform render ps buildDir).outcomes,
      ∃ p i s, out = processImage cfg fs dims transform s p i
        (cfg.incremental && !force) := by
  intro out hout
  cases hscan : scanPhotos ps with
  | single ph =>
    rw [runBuild_single cfg force fs dims transform render ps buildDir ph hscan] at hout
    obtain ⟨ip, _, hip⟩ := List.mem_map.mp hout
    exact ⟨"", ip.1, ip.2, hip.symm⟩
  | albums d =>
    cases d with
    | nil =>
      rw [runBuild_empty cfg force fs dims transform render ps buildDir hscan] at hout
      exact absurd hout (by simp)
    | cons kv rest =>
      rw [runBuild_nested cfg force fs dims transform render ps buildDir kv rest
        hscan] at hout
      obtain ⟨p, i, s, hs⟩ := albumOutcomes_mem _ _ out hout
      exact ⟨p, i, s, hs⟩

theorem runBuild_cleanIncremental (cfg : Config) (force : Bool)
    (fs : String → Option Int) (dims : String → Option (Nat × Nat))
    (transform : String → String → Nat → ImgInfo)
    (render : List String → List String) (ps : List (List String × SourceRef))
    (buildDir : Option (List String)) :
    (runBuild cfg force fs dims transform render ps buildDir).cleanIncremental =
      (cfg.incremental && !force) := by
  cases hscan : scanPhotos ps with
  | single ph =>
    rw [runBuild_single cfg force fs dims transform render ps buildDir ph hscan]
  | albums d =>
    cases d with
    | nil =>
      rw [runBuild_empty cfg force fs dims transform render ps buildDir hscan]
    | cons kv rest =>
      rw [runBuild_nested cfg force fs dims transform render ps buildDir kv rest hscan]

/-! ## Lemmas: the collapse check of `scan_photos` -/

theorem scanPhotos_cond_iff {α : Type} (ps : List (List String × α)) :
    (∃ l, scanPhotos ps = ScanResult.single l) ↔
      ∃ n, buildAlbums ps = [("Main", n)] := by
  unfold scanPhotos
  by_cases hcond : (buildAlbums ps).length = 1 ∧ dictContains (buildAlbums ps) "Main"
  · rw [if_pos hcond]
    constructor
    · intro _
      obtain ⟨hlen, hmem⟩ := hcond
      cases hd : buildAlbums ps with
      | nil => rw [hd] at hlen; simp at hlen
      | cons kv rest =>
        cases rest with
        | nil =>
          obtain ⟨k, v⟩ := kv
          rw [hd] at hmem
          unfold dictContains dictLookup at hmem
          by_cases hk : k = "Main"
          · exact ⟨v, by rw [hk]⟩
          · rw [if_neg hk] at hmem
            simp [dictLookup] at hmem
        | cons kv2 rest2 => rw [hd] at hlen; simp at hlen
    · intro _
      exact ⟨_, rfl⟩
  · rw [if_neg hcond]
    constructor
    · rintro ⟨l, hl⟩
      exact absurd hl (by simp)
    · rintro ⟨n, hn⟩
      exfalso
      apply hcond
      rw [hn]
      refine ⟨rfl, ?_⟩
      unfold dictContains dictLookup
      simp

theorem scanPhotos_single_val {α : Type} (ps : List (List String × α)) (n : Album α)
    (h : buildAlbums ps = [("Main", n)]) :
    scanPhotos ps = ScanResult.single n.photos := by
  unfold scanPhotos
  rw [h]
  rw [if_pos ⟨rfl, by unfold dictContains dictLookup; simp⟩]
  unfold dictLookup
  simp

theorem eq_single_main_iff {α : Type} (d : Albums α) (hnd : (keysOf d).Nodup) :
    (∃ n, d = [("Main", n)]) ↔
      ("Main" ∈ keysOf d ∧ ∀ k ∈ keysOf d, k = "Main") := by
  constructor
  · rintro ⟨n, hn⟩
    subst hn
    constructor
    · simp [keysOf]
    · intro k hk
      simp [keysOf] at hk
      exact hk
  · rintro ⟨hmem, hall⟩
    cases d with
    | nil => simp [keysOf] at hmem
    | cons kv rest =>
      obtain ⟨k, v⟩ := kv
      have hk : k = "Main" := hall k (by simp [keysOf])
      have hnotin : k ∉ keysOf rest := (List.nodup_cons.mp (by
        rw [show keysOf ((k, v) :: rest) = k :: keysOf rest from rfl] at hnd
        exact hnd)).1
      have hrest : keysOf rest = [] := by
        cases hr : keysOf rest with
        | nil => rfl
        | cons k2 ks =>
          have hk2 : k2 = "Main" := hall k2 (by
            rw [show keysOf ((k, v) :: rest) = k :: keysOf rest from rfl, hr]
            exact List.mem_cons_of_mem _ (List.mem_cons_self _ _))
          exfalso
          apply hnotin
          rw [hr, hk, hk2]
          exact List.mem_cons_self _ _
      have hrnil : rest = [] := by
        cases rest with
        | nil => rfl
        | cons kv2 rest2 => simp [keysOf] at hrest
      subst hrnil
      exact ⟨v, by rw [hk]⟩

/-- The collapsed form is produced exactly when every contributing photo
keys to the sentinel `Main` entry (root-level photos, and photos under a
top-level directory literally named `Main`). -/
theorem scanPhotos_single_iff {α : Type} (ps : List (List String × α)) :
    (∃ l, scanPhotos ps = ScanResult.single l) ↔
      ((∃ pr ∈ ps, pr.1 ≠ []) ∧
        ∀ pr ∈ ps, pr.1 ≠ [] → firstKey pr.1 = "Main") := by
  rw [scanPhotos_cond_iff,
    eq_single_main_iff (buildAlbums ps) (albumsWF_buildAlbums ps).1]
  constructor
  · rintro ⟨hmem, hall⟩
    obtain ⟨pr, hpr, hne, -⟩ := (mem_keysOf_buildAlbums ps "Main").mp hmem
    refine ⟨⟨pr, hpr, hne⟩, ?_⟩
    intro pr2 hpr2 hne2
    exact hall (firstKey pr2.1)
      ((mem_keysOf_buildAlbums ps (firstKey pr2.1)).mpr ⟨pr2, hpr2, hne2, rfl⟩)
  · rintro ⟨⟨pr0, hpr0, hne0⟩, hall⟩
    constructor
    · exact (mem_keysOf_buildAlbums ps "Main").mpr
        ⟨pr0, hpr0, hne0, hall pr0 hpr0 hne0⟩
    · intro k hk
      obtain ⟨pr, hpr, hne, hfk⟩ := (mem_keysOf_buildAlbums ps k).mp hk
      rw [← hfk]
      exact hall pr hpr hne

/-- Folding root-level photos only appends to the `Main` album. -/
theorem fold_all_root {α : Type} (l : List (List String × α)) :
    ∀ (phs : List α), (∀ pr ∈ l, pr.1.length = 1) →
      l.foldl (fun d pr => addPhoto d pr.1 pr.2)
          [("Main", Album.mk "Main" "main" phs [])] =
        [("Main", Album.mk "Main" "main" (phs ++ l.map Prod.snd) [])] := by
  induction l with
  | nil => intro phs _; simp
  | cons pr rest ih =>
    intro phs hall
    rw [List.foldl_cons]
    have h1 : pr.1.length = 1 := hall pr (List.mem_cons_self _ _)
    have hstep : addPhoto [("Main", Album.mk "Main" "main" phs [])] pr.1 pr.2 =
        [("Main", Album.mk "Main" "main" (phs ++ [pr.2]) [])] := by
      unfold addPhoto
      rw [if_pos h1]
      unfold insertLeaf dictEnsure dictContains dictLookup
      simp [dictModify, Album.appendPhoto]
    rw [hstep, ih (phs ++ [pr.2]) (fun pr2 hpr2 => hall pr2 (List.mem_cons_of_mem _ hpr2))]
    simp

theorem scanPhotos_all_root {α : Type} (ps : List (List String × α))
    (hne : ps ≠ []) (hroot : ∀ pr ∈ ps, pr.1.length = 1) :
    scanPhotos ps = ScanResult.single (ps.map Prod.snd) := by
  cases ps with
  | nil => exact absurd rfl hne
  | cons pr rest =>
    have h1 : pr.1.length = 1 := hroot pr (List.mem_cons_self _ _)
    have hfirst : addPhoto [] pr.1 pr.2 =
        [("Main", Album.mk "Main" "main" [pr.2] [])] := by
      unfold addPhoto
      rw [if_pos h1]
      unfold insertLeaf dictEnsure dictContains dictLookup
      simp [dictModify, Album.appendPhoto]
    have hbuild : buildAlbums (pr :: rest) =
        [("Main", Album.mk "Main" "main" (pr.2 :: rest.map Prod.snd) [])] := by
      unfold buildAlbums
      rw [List.foldl_cons, hfirst,
        fold_all_root rest [pr.2] (fun pr2 hpr2 => hroot pr2 (List.mem_cons_of_mem _ hpr2))]
      simp
    rw [scanPhotos_single_val _ _ hbuild]
    rfl

/-! ## The claims -/

/-- C1 counterexample: one photo under a top-level directory literally
named `Main` plus one root photo — not a root-only set — still collapses
to the single-album form, refuting the claimed "only if" direction. -/
theorem c1_collapse_counterexample :
    scanPhotos [((["Main", "b.jpg"] : List String), (0 : Nat)), (["a.jpg"], 1)] =
      ScanResult.single [0, 1] ∧
    ¬ (∀ pr ∈ [((["Main", "b.jpg"] : List String), (0 : Nat)), (["a.jpg"], 1)],
        pr.1.length = 1) := by
  constructor
  · rfl
  · decide

/-- C1 (amended): `scan_photos` collapses to the single-flat-album form
iff at least one photo contributes an entry and every contributing photo
keys to the sentinel `Main` (root-level, or under a top-level directory
literally named `Main`) — a condition implied by, but weaker than, "only
root-level photos".  A set of only root photos collapses to all photos in
discovery order; one root photo plus one photo in a subdirectory not
named `Main` yields two distinct top-level nodes and no collapse. -/
theorem c1_collapse_rule :
    (∀ (α : Type) (ps : List (List String × α)), ps ≠ [] →
        (∀ pr ∈ ps, pr.1.length = 1) →
        scanPhotos ps = ScanResult.single (ps.map Prod.snd)) ∧
    (∀ (α : Type) (ps : List (List String × α)),
        (∃ l, scanPhotos ps = ScanResult.single l) ↔
          ((∃ pr ∈ ps, pr.1 ≠ []) ∧
            ∀ pr ∈ ps, pr.1 ≠ [] → firstKey pr.1 = "Main")) ∧
    (∀ (a d b : String) (x y : Nat), d ≠ "Main" →
        scanPhotos [([a], x), ([d, b], y)] =
          ScanResult.albums [("Main", Album.mk "Main" "main" [x] []),
            (d, Album.mk d d [y] [])]) := by
  refine ⟨?_, ?_, ?_⟩
  · intro α ps hne hroot
    exact scanPhotos_all_root ps hne hroot
  · intro α ps
    exact scanPhotos_single_iff ps
  · intro a d b x y hd
    have hd' : ¬ ("Main" = d) := fun hh => hd hh.symm
    have h1 : addPhoto ([] : Albums Nat) [a] x =
        [("Main", Album.mk "Main" "main" [x] [])] := by
      unfold addPhoto
      rw [if_pos (by simp)]
      unfold insertLeaf dictEnsure dictContains dictLookup
      simp [dictModify, Album.appendPhoto]
    have hj : joinPath [d] = d := rfl
    have h2 : addPhoto [("Main", Album.mk "Main" "main" [x] [])] [d, b] y =
        [("Main", Album.mk "Main" "main" [x] []), (d, Album.mk d d [y] [])] := by
      unfold addPhoto
      rw [if_neg (by simp)]
      show insertLeaf [("Main", Album.mk "Main" "main" [x] [])] d (joinPath [d]) y = _
      rw [hj]
      unfold insertLeaf dictEnsure dictContains dictLookup
      rw [if_neg hd']
      simp [dictModify, hd', Album.appendPhoto]
    have hbuild : buildAlbums [([a], x), ([d, b], y)] =
        [("Main", Album.mk "Main" "main" [x] []), (d, Album.mk d d [y] [])] := by
      unfold buildAlbums
      rw [List.foldl_cons, h1, List.foldl_cons, h2, List.foldl_nil]
    unfold scanPhotos
    rw [hbuild, if_neg (fun hcond => by simp at hcond)]

/-- C1 witness: a root-only set collapses with both photos in discovery
order; a root photo plus a photo in subdirectory `d` does not collapse. -/
theorem c1_collapse_rule_witness :
    scanPhotos [((["x.jpg"] : List String), (0 : Nat)), (["y.jpg"], 1)] =
      ScanResult.single [0, 1] ∧
    scanPhotos [((["a.jpg"] : List String), (0 : Nat)), (["d", "b.jpg"], 1)] =
      ScanResult.albums [("Main", Album.mk "Main" "main" [0] []),
        ("d", Album.mk "d" "d" [1] [])] := by
  constructor
  · exact c1_collapse_rule.1 Nat _ (by simp) (by decide)
  · exact c1_collapse_rule.2.2 "a.jpg" "d" "b.jpg" 0 1 (by decide)

/-- C2: `_should_skip_processing` returns false whenever an output is
missing, regardless of timestamps; and when the source is statable it
returns true iff every output exists with modification time strictly
greater than the source's — an output whose time merely equals the
source's forces false. -/
theorem c2_staleness_oracle (fs : String → Option Int) (src : String)
    (outs : List String) :
    ((∃ o ∈ outs, fs o = none) → shouldSkipProcessing fs src outs = some false) ∧
    ∀ ms : Int, fs src = some ms →
      ((shouldSkipProcessing fs src outs = some true ↔
          ∀ o ∈ outs, ∃ m, fs o = some m ∧ ms < m) ∧
        ((∃ o ∈ outs, fs o = some ms) →
          shouldSkipProcessing fs src outs = some false) ∧
        shouldSkipProcessing fs src outs ≠ none) := by
  refine ⟨shouldSkip_false_of_missing fs src outs, ?_⟩
  intro ms hs
  have hne := shouldSkip_ne_none_of_src fs src outs ms hs
  have hiff := shouldSkip_true_iff fs src outs ms hs
  refine ⟨hiff, ?_, hne⟩
  rintro ⟨o, ho, hm⟩
  cases hval : shouldSkipProcessing fs src outs with
  | none => exact absurd hval hne
  | some b =>
    cases b with
    | true =>
      obtain ⟨m2, hm2, hlt⟩ := (hiff.mp hval) o ho
      rw [hm] at hm2
      injection hm2 with h3
      omega
    | false => rfl

/-- C2 witness: an output whose modification time equals the source's is
stale — the oracle answers false. -/
theorem c2_staleness_oracle_witness :
    shouldSkipProcessing (fun _ => some (5 : Int)) "s" ["o"] = some false :=
  ((c2_staleness_oracle (fun _ => some (5 : Int)) "s" ["o"]).2 5 rfl).2.1
    ⟨"o", by simp, rfl⟩

/-- C3: in the processed tree, the stored `total_photos` of every
reachable node is `_count_all_photos` of the node and the top-level sum
equals the number of discovered photos; `cover_photo` is
`_get_first_photo`, which is the node's own first photo when it has one,
otherwise the first cover found in its children in insertion order, and
is never `none` on a node whose subtree holds a photo. -/
theorem c3_aggregation (α β : Type) (f : String → Nat → α → β)
    (ps : List (List String × α)) :
    ((∀ pr ∈ ps, pr.1 ≠ []) →
      ((processAlbums f (buildAlbums ps)).map
        (fun kv => kv.2.totalPhotos)).sum = ps.length) ∧
    ∀ (q : List String) (n : PAlbum β),
      nodeAtP (processAlbums f (buildAlbums ps)) q = some n →
        n.totalPhotos = countAllP n ∧
        n.coverPhoto = getFirstP n ∧
        (0 < countAllP n → (n.coverPhoto).isSome) ∧
        (∀ (p : β) (r2 : List β), n.photos = p :: r2 → n.coverPhoto = some p) ∧
        (n.photos = [] → n.coverPhoto = getFirstPSubs n.subs) := by
  constructor
  · intro hall
    rw [sumTop_processAlbums, countAllSubs_buildAlbums]
    have hfe : ps.filter (fun pr => !pr.1.isEmpty) = ps := by
      rw [List.filter_eq_self]
      intro pr hpr
      simp [List.isEmpty_iff, hall pr hpr]
    rw [hfe]
  · intro q n hn
    obtain ⟨name, a, ha, hn'⟩ := nodeAtP_processAlbums f q (buildAlbums ps) n hn
    subst hn'
    refine ⟨totalPhotos_processNode f name a, coverPhoto_processNode f name a,
      ?_, ?_, ?_⟩
    · intro hpos
      rw [coverPhoto_processNode]
      exact getFirstP_isSome_of_pos _ hpos
    · intro p r2 hph
      rw [coverPhoto_processNode]
      exact getFirstP_of_head _ p r2 hph
    · intro hph
      rw [coverPhoto_processNode]
      exact getFirstP_of_no_photos _ hph

/-- C3 witness: two photos, one at the root and one in a subdirectory:
the top-level totals sum to 2. -/
theorem c3_aggregation_witness :
    ((processAlbums (fun _ _ (x : Nat) => x)
      (buildAlbums [((["a.jpg"] : List String), (0 : Nat)), (["t", "b.jpg"], 1)])).map
        (fun kv => kv.2.totalPhotos)).sum = 2 :=
  (c3_aggregation Nat Nat (fun _ _ x => x)
    [((["a.jpg"] : List String), (0 : Nat)), (["t", "b.jpg"], 1)]).1 (by decide)

/-- C4: the tree builder stores each photo at exactly the node of its
album path, in discovery order (the filter characterisation); produces
exactly one node per distinct nonempty prefix of an occurring album path
(`keyPaths` nodup plus the membership characterisation); and repeated
insertion at a seen path only appends to the existing node's photo
list. -/
theorem c4_tree_builder (α : Type) (ps : List (List String × α)) :
    (∀ q : List String,
      photosAt (buildAlbums ps) q =
        (ps.filter (fun pr =>
          decide (pr.1 ≠ [] ∧ q = albumPathOf pr.1))).map Prod.snd) ∧
    (keyPaths (buildAlbums ps)).Nodup ∧
    (∀ q : List String,
      q ∈ keyPaths (buildAlbums ps) ↔
        ∃ pr ∈ ps, pr.1 ≠ [] ∧ q ≠ [] ∧ ∃ t, q ++ t = albumPathOf pr.1) ∧
    (∀ (d : Albums α) (rel : List String) (x : α),
      photosAt (addPhoto d rel x) (albumPathOf rel) =
        photosAt d (albumPathOf rel) ++ (if rel ≠ [] then [x] else [])) := by
  refine ⟨photosAt_buildAlbums ps, keyPaths_buildAlbums_nodup ps,
    mem_keyPaths_buildAlbums ps, ?_⟩
  intro d rel x
  rw [photosAt_addPhoto]
  by_cases h : rel = []
  · subst h
    simp
  · simp [h]

/-- C4 witness: concrete two-photo set, the `Main` node carries exactly
the root photo. -/
theorem c4_tree_builder_witness :
    photosAt (buildAlbums [((["a.jpg"] : List String), (0 : Nat)),
      (["t", "b.jpg"], 1)]) ["Main"] = [0] := by
  rw [(c4_tree_builder Nat [((["a.jpg"] : List String), (0 : Nat)),
    (["t", "b.jpg"], 1)]).1 ["Main"]]
  decide

/-- C5: `_build_breadcrumb` equals the spec's breadcrumb — one entry per
segment after Home, capitalized names, slug-of-path-so-far URLs; the
`travel/spain/barcelona` example; and the breadcrumb slug of a node's
full path equals the album-page filename slug, so links and filenames
agree. -/
theorem c5_breadcrumb :
    (∀ path : String, buildBreadcrumb path = breadcrumbSpec path) ∧
    buildBreadcrumb "travel/spain/barcelona" =
      [("Home", "index.html"), ("Travel", "travel.html"),
       ("Spain", "travel-spain.html"),
       ("Barcelona", "travel-spain-barcelona.html")] ∧
    (∀ path : String,
      replaceCh ' ' '-' (lowerStr (joinSep '-' (splitSlash path))) =
        slugPage path) := by
  refine ⟨buildBreadcrumb_eq_spec, rfl, breadcrumbSlug_agrees⟩

/-- C5 witness: the spec equality at a path with a space in a segment. -/
theorem c5_breadcrumb_witness :
    buildBreadcrumb "new york/day 1" = breadcrumbSpec "new york/day 1" :=
  c5_breadcrumb.1 "new york/day 1"

/-- C6 counterexample: a build over zero photos still runs `clean_build`
first, deleting the existing output contents (here `index.html`) before
it stops — the output directory is not left untouched. -/
theorem c6_empty_scan_counterexample :
    (runBuild
      { keepOriginalFilenames := true, generateWebp := false, incremental := false,
        imagesDir := "docs/images", imagesBasePath := "images" }
      false (fun _ => none) (fun _ => none)
      (fun _ _ _ =>
        { filename := "", full := "", thumb := "", width := 0, height := 0,
          exif := none, fullWebp := none, thumbWebp := none })
      id [] (some ["index.html", "images"])).stoppedEmpty = true ∧
    (runBuild
      { keepOriginalFilenames := true, generateWebp := false, incremental := false,
        imagesDir := "docs/images", imagesBasePath := "images" }
      false (fun _ => none) (fun _ => none)
      (fun _ _ _ =>
        { filename := "", full := "", thumb := "", width := 0, height := 0,
          exif := none, fullWebp := none, thumbWebp := none })
      id [] (some ["index.html", "images"])).outItems = ["images"] ∧
    (runBuild
      { keepOriginalFilenames := true, generateWebp := false, incremental := false,
        imagesDir := "docs/images", imagesBasePath := "images" }
      false (fun _ => none) (fun _ => none)
      (fun _ _ _ =>
        { filename := "", full := "", thumb := "", width := 0, height := 0,
          exif := none, fullWebp := none, thumbWebp := none })
      id [] (some ["index.html", "images"])).outItems ≠ ["index.html", "images"] := by
  refine ⟨rfl, rfl, ?_⟩
  decide

/-- C6 (amended): when the scan finds zero photos the build stops after
the diagnostic — no photo is processed and no HTML is rendered — but
only after `clean_build` has already rewritten the output directory;
the final output state is the post-clean state, not the original one. -/
theorem c6_empty_scan_stops (cfg : Config) (force : Bool)
    (fs : String → Option Int) (dims : String → Option (Nat × Nat))
    (transform : String → String → Nat → ImgInfo)
    (render : List String → List String) (ps : List (List String × SourceRef))
    (buildDir : Option (List String))
    (h : scanPhotos ps = ScanResult.albums []) :
    runBuild cfg force fs dims transform render ps buildDir =
      { cleanIncremental := cfg.incremental && !force, stoppedEmpty := true,
        outcomes := [], rendered := false,
        outItems := cleanBuild (cfg.incremental && !force) buildDir } :=
  runBuild_empty cfg force fs dims transform render ps buildDir h

/-- C6 witness: concrete empty-source build in full-clean mode. -/
theorem c6_empty_scan_stops_witness :
    runBuild
      { keepOriginalFilenames := true, generateWebp := false, incremental := false,
        imagesDir := "docs/images", imagesBasePath := "images" }
      false (fun _ => none) (fun _ => none)
      (fun _ _ _ =>
        { filename := "", full := "", thumb := "", width := 0, height := 0,
          exif := none, fullWebp := none, thumbWebp := none })
      id [] (some ["stale.html", "images"]) =
      { cleanIncremental := false, stoppedEmpty := true, outcomes := [],
        rendered := false, outItems := ["images"] } :=
  (c6_empty_scan_stops
    { keepOriginalFilenames := true, generateWebp := false, incremental := false,
      imagesDir := "docs/images", imagesBasePath := "images" }
    false (fun _ => none) (fun _ => none)
    (fun _ _ _ =>
      { filename := "", full := "", thumb := "", width := 0, height := 0,
        exif := none, fullWebp := none, thumbWebp := none })
    id [] (some ["stale.html", "images"]) rfl).trans rfl

/-- C7 counterexample: all outputs exist but the source's stat fails —
the oracle raises (models an uncaught exception) instead of answering
"not stale". -/
theorem c7_stat_failure_counterexample :
    shouldSkipProcessing (fun p => if p = "out" then some (3 : Int) else none)
      "src" ["out"] = none ∧
    shouldSkipProcessing (fun p => if p = "out" then some (3 : Int) else none)
      "src" ["out"] ≠ some false := by
  refine ⟨rfl, ?_⟩
  decide

/-- C7 (amended): a stat failure on an output path is treated as "not
stale" (because `Path.exists` reports false and the oracle returns
false), but a stat failure on the source itself propagates out of the
check — the oracle raises exactly when every output exists and the
source cannot be statted. -/
theorem c7_stat_failure (fs : String → Option Int) (src : String)
    (outs : List String) :
    ((∃ o ∈ outs, fs o = none) → shouldSkipProcessing fs src outs = some false) ∧
    (shouldSkipProcessing fs src outs = none ↔
      (∀ o ∈ outs, (fs o).isSome) ∧ fs src = none) :=
  ⟨shouldSkip_false_of_missing fs src outs, shouldSkip_none_iff fs src outs⟩

/-- C7 witness: a missing (unstattable) output forces regeneration. -/
theorem c7_stat_failure_witness :
    shouldSkipProcessing (fun _ => (none : Option Int)) "s" ["o"] = some false :=
  (c7_stat_failure (fun _ => (none : Option Int)) "s" ["o"]).1 ⟨"o", by simp, rfl⟩

/-- C8: when the oracle answers true, `process_image` still returns a
complete record: its dimensions are the ones read from the existing
full-size output, its exif field is `none`, and no regeneration runs. -/
theorem c8_skip_synthesizes_record (cfg : Config) (fs : String → Option Int)
    (dims : String → Option (Nat × Nat)) (transform : String → String → Nat → ImgInfo)
    (src : SourceRef) (albumPath : String) (idx w h : Nat)
    (hskip : shouldSkipProcessing fs src.path (outputsFor cfg src albumPath idx) =
      some true)
    (hdims : dims (fullPathFor cfg src albumPath idx) = some (w, h)) :
    ∃ info,
      (processImage cfg fs dims transform src albumPath idx true).info = some info ∧
      info.filename = (outFilename cfg src idx).1 ∧
      info.width = w ∧ info.height = h ∧ info.exif = none ∧
      (processImage cfg fs dims transform src albumPath idx true).regenerated =
        false := by
  rw [processImage_skip_true cfg fs dims transform src albumPath idx hskip]
  obtain ⟨info, hinfo, h1, h2, h3, h4⟩ := buildImageInfo_fields cfg fs dims albumPath
    (outFilename cfg src idx).1 (fullPathFor cfg src albumPath idx)
    (if cfg.generateWebp then some (outFilename cfg src idx).2 else none) w h hdims
  exact ⟨info, hinfo, h1, h2, h3, h4, rfl⟩

/-- C8 witness: up-to-date outputs, dimensions recovered from the
existing full-size file, exif unavailable. -/
theorem c8_skip_synthesizes_record_witness :
    ∃ info,
      (processImage
        { keepOriginalFilenames := true, generateWebp := false, incremental := true,
          imagesDir := "images", imagesBasePath := "images" }
        (fun p => if p = "photos/a.jpg" then some (0 : Int) else some 5)
        (fun p => if p = "images/a.jpg" then some (800, 600) else none)
        (fun _ _ _ =>
          { filename := "", full := "", thumb := "", width := 0, height := 0,
            exif := none, fullWebp := none, thumbWebp := none })
        { path := "photos/a.jpg", name := "a.jpg", stem := "a", suffix := ".jpg" }
        "" 1 true).info = some info ∧
      info.width = 800 ∧ info.height = 600 ∧ info.exif = none := by
  obtain ⟨info, hinfo, -, h2, h3, h4, -⟩ := c8_skip_synthesizes_record
    { keepOriginalFilenames := true, generateWebp := false, incremental := true,
      imagesDir := "images", imagesBasePath := "images" }
    (fun p => if p = "photos/a.jpg" then some (0 : Int) else some 5)
    (fun p => if p = "images/a.jpg" then some (800, 600) else none)
    (fun _ _ _ =>
      { filename := "", full := "", thumb := "", width := 0, height := 0,
        exif := none, fullWebp := none, thumbWebp := none })
    { path := "photos/a.jpg", name := "a.jpg", stem := "a", suffix := ".jpg" }
    "" 1 800 600 rfl rfl
  exact ⟨info, hinfo, h2, h3, h4⟩

/-- C9: with incremental enabled in configuration but the force directive
set, the build cleans in full (non-incremental) mode, the staleness
oracle is never consulted, and every photo outcome is a regeneration. -/
theorem c9_force_rebuild (cfg : Config) (force : Bool) (fs : String → Option Int)
    (dims : String → Option (Nat × Nat)) (transform : String → String → Nat → ImgInfo)
    (render : List String → List String) (ps : List (List String × SourceRef))
    (buildDir : Option (List String))
    (hinc : cfg.incremental = true) (hforce : force = true) :
    (runBuild cfg force fs dims transform render ps buildDir).cleanIncremental =
      false ∧
    ∀ out ∈ (runBuild cfg force fs dims transform render ps buildDir).outcomes,
      out.consultedOracle = false ∧ out.regenerated = true := by
  have hflag : (cfg.incremental && !force) = false := by
    rw [hinc, hforce]
    rfl
  constructor
  · rw [runBuild_cleanIncremental, hflag]
  · intro out hout
    obtain ⟨p, i, s, hs⟩ :=
      runBuild_outcome_mem cfg force fs dims transform render ps buildDir out hout
    rw [hs, hflag, processImage_no_skip]
    exact ⟨rfl, rfl⟩

/-- C9 witness: a one-photo build with incremental configured on and the
force flag set never consults the oracle and regenerates the photo. -/
theorem c9_force_rebuild_witness :
    (runBuild
      { keepOriginalFilenames := true, generateWebp := false, incremental := true,
        imagesDir := "images", imagesBasePath := "images" }
      true (fun _ => some 0) (fun _ => none)
      (fun _ _ _ =>
        { filename := "", full := "", thumb := "", width := 0, height := 0,
          exif := none, fullWebp := none, thumbWebp := none })
      id [(["a.jpg"],
        { path := "photos/a.jpg", name := "a.jpg", stem := "a", suffix := ".jpg" })]
      none).cleanIncremental = false ∧
    ∀ out ∈ (runBuild
      { keepOriginalFilenames := true, generateWebp := false, incremental := true,
        imagesDir := "images", imagesBasePath := "images" }
      true (fun _ => some 0) (fun _ => none)
      (fun _ _ _ =>
        { filename := "", full := "", thumb := "", width := 0, height := 0,
          exif := none, fullWebp := none, thumbWebp := none })
      id [(["a.jpg"],
        { path := "photos/a.jpg", name := "a.jpg", stem := "a", suffix := ".jpg" })]
      none).outcomes,
      out.consultedOracle = false ∧ out.regenerated = true :=
  c9_force_rebuild
    { keepOriginalFilenames := true, generateWebp := false, incremental := true,
      imagesDir := "images", imagesBasePath := "images" }
    true (fun _ => some 0) (fun _ => none)
    (fun _ _ _ =>
      { filename := "", full := "", thumb := "", width := 0, height := 0,
        exif := none, fullWebp := none, thumbWebp := none })
    id [(["a.jpg"],
      { path := "photos/a.jpg", name := "a.jpg", stem := "a", suffix := ".jpg" })]
    none rfl rfl

/-- C10 counterexample: with an empty output list the oracle still stats
the source; when that stat fails it raises instead of returning true, so
the skip is not unconditional. -/
theorem c10_empty_outputs_counterexample :
    shouldSkipProcessing (fun _ => (none : Option Int)) "src" [] = none ∧
    shouldSkipProcessing (fun _ => (none : Option Int)) "src" [] ≠ some true := by
  refine ⟨rfl, ?_⟩
  decide

/-- C10 (amended): with an empty output list the oracle returns true
(vacuously) whenever the source's stat succeeds — the source's
modification time is read but unused; if the source stat fails the error
propagates instead. -/
theorem c10_empty_outputs (fs : String → Option Int) (src : String) (ms : Int)
    (h : fs src = some ms) : shouldSkipProcessing fs src [] = some true :=
  shouldSkip_empty_outputs fs src ms h

/-- C10 witness: statable source, empty output set, skip. -/
theorem c10_empty_outputs_witness :
    shouldSkipProcessing (fun _ => some (3 : Int)) "s" [] = some true :=
  c10_empty_outputs (fun _ => some (3 : Int)) "s" 3 rfl

end Photfolio
